import Mathlib

/-! # vaultd: recursive listing and deletion of Vault secrets

A shallow embedding of `main.go`.  The Vault API client is an external
collaborator: it is a parameter (`Backend`) whose four operations are state
transformers over an abstract server state.  Every effect the Go code performs
(a request to the client, a `log.Printf` line, a line on standard output, a read
from standard input) is appended to the `trace` of the `World`, so that claims
about "which calls were issued, in which order" are statements about the trace.

Go strings are modelled by `String`, and every string operation is defined on the
underlying character list (`String.data`).  The only characters the program
inspects (`/`, ASCII letters and digits) are ASCII, so working with characters
instead of bytes does not change any result on valid UTF-8 input.

A Go function with results `(T, error)` returns a pair, so that "a nil slice
together with an error" and "a slice together with an error" are different
results; a function that can panic returns an `Outcome`.  The recursion depth is
a natural number: `DeleteAll` starts `listRecurse` at depth 0 and every call adds
one, far below the range of `int`.
-/

namespace Vaultd

/-! ## Values, errors, effects -/

/-- The constant `maxRecurseDepth`. -/
def maxRecurseDepth : Nat := 10

/-- The constant `dataField`. -/
def dataField : String := "data"

/-- Go error values, one constructor per expression of the source that builds one. -/
inductive GoError where
  /-- An error created by `fmt.Errorf` with a constant text. -/
  | errorf (msg : String)
  /-- An error handed back by the Vault client or the standard library. -/
  | client (msg : String)
  /-- The wrapper built by `store.makeError(action, key, err)`. -/
  | makeError (action key : String) (err : GoError)
  /-- The wrapper `fmt.Errorf("failed to decode data: %v", err)`. -/
  | decodeFailed (err : GoError)
  /-- The error `fmt.Errorf("can't find keys to delete: %s", path)`. -/
  | cantFind (path : String)
  /-- The `base64.CorruptInputError` with which `base64.StdEncoding.DecodeString`
  rejects the given text. -/
  | corruptInput (input : String)
  deriving DecidableEq, Repr

/-- The package variable `errKeyNotExists`. -/
def errKeyNotExists : GoError := .errorf "vault key not exists"

/-- The package variable `errInvalidValue`. -/
def errInvalidValue : GoError := .errorf "vault value is malformed"

/-- The text of an error (`err.Error()`); `store` is the rendering of the
receiver that `makeError` prints with `%s`, and `offset` gives, for a text that
`DecodeString` rejects, the input offset that its `CorruptInputError` reports
(`illegal base64 data at input byte N`); both are left to the Go runtime and
library. -/
def GoError.text (store : String) (offset : String → Nat) : GoError → String
  | .errorf msg => msg
  | .client msg => msg
  | .makeError action key err =>
      "failed to " ++ action ++ " key '" ++ key ++ "' from " ++ store ++ ": " ++
        err.text store offset
  | .decodeFailed err => "failed to decode data: " ++ err.text store offset
  | .cantFind path => "can't find keys to delete: " ++ path
  | .corruptInput input => "illegal base64 data at input byte " ++ toString (offset input)

/-- The innermost error below the `makeError` wrappers. -/
def GoError.cause : GoError → GoError
  | .makeError _ _ err => err.cause
  | e => e

/-- A dynamically typed Go value (`interface{}`) as found in `Secret.Data`. -/
inductive Val where
  | nil
  | str (s : String)
  | num (n : Int)
  | list (items : List Val)
  | map (fields : List (String × Val))

/-- A Go `map[string]interface{}` as an association list. -/
abbrev Data := List (String × Val)

/-- Map indexing `m[key]`: the value stored under the key, `nil` when absent. -/
def Data.get (m : Data) (key : String) : Val :=
  match m.find? (fun kv => kv.1 == key) with
  | some kv => kv.2
  | none => .nil

/-- The part of `vaultapi.Secret` the program reads. -/
structure Secret where
  Data : Data

/-- What a client call returns: `(*Secret, error)`. -/
abbrev Reply := Option Secret × Option GoError

/-- The Vault client `store.VaultClient.Logical()` over a server state `σ`. -/
structure Backend (σ : Type) where
  Read : String → σ → Reply × σ
  Write : String → Data → σ → Reply × σ
  List : String → σ → Reply × σ
  Delete : String → σ → Reply × σ

/-- A request sent to the client. -/
inductive Call where
  | read (path : String)
  | write (path : String) (data : Data)
  | list (path : String)
  | delete (path : String)

/-- The lines written with `log.Printf`, one constructor per call site. -/
inductive LogLine where
  /-- The line `List key %s`. -/
  | listKey (key : String)
  /-- The line `Get key %s`. -/
  | getKey (path : String)
  /-- The line `Set key %s (len: %d bytes)`. -/
  | setKey (path : String) (len : Nat)
  /-- The line `Delete key %s`. -/
  | deleteKey (path : String)
  /-- The line `Collecting information: %s`. -/
  | collecting (path : String)
  /-- The line `DeleteAll: deleting %d keys`. -/
  | deleting (n : Nat)
  /-- The line `failed to delete %s: %v`. -/
  | failedToDelete (key : String) (err : GoError)

/-- An observable effect. -/
inductive Event where
  /-- A request to the client together with the error it returned. -/
  | call (c : Call) (err : Option GoError)
  /-- A `log.Printf` line. -/
  | log (l : LogLine)
  /-- Text written to standard output. -/
  | print (text : String)
  /-- The final `Spent: %.2fs` line (the elapsed time is not modelled). -/
  | printSpent
  /-- One `fmt.Scan` on standard input. -/
  | scan

/-- The state the program runs in. -/
structure World (σ : Type) where
  /-- State of the Vault server. -/
  store : σ
  /-- Effects performed so far, oldest first. -/
  trace : List Event
  /-- Whitespace separated tokens still to be read from standard input. -/
  stdin : List String

/-- The value of a Go panic, one constructor per expression of the source that
can panic. -/
inductive Panic where
  /-- The runtime error of a type assertion `x.(string)` on the value `x` that is
  not a string: `interface conversion: interface {} is T, not string`, where `T`
  is the dynamic type of `x` (`nil` for the nil value). -/
  | notString (x : Val)

/-- How a Go function call ends: it returns its results or it panics. -/
inductive Outcome (α : Type) where
  | ret (r : α)
  | panic (p : Panic)

/-- A Go `[]string`: `none` is the nil slice. -/
abbrev Slice := Option (List String)

/-- The elements of a slice (`range` over a nil slice runs zero times). -/
def Slice.toList : Slice → List String
  | some l => l
  | none => []

/-- Appends an event to the trace. -/
def World.emit {σ : Type} (w : World σ) (e : Event) : World σ :=
  { w with trace := w.trace ++ [e] }

/-- The call `store.VaultClient.Logical().List(path)`. -/
def callList {σ : Type} (b : Backend σ) (path : String) (w : World σ) : Reply × World σ :=
  let r := b.List path w.store
  (r.1, { w with store := r.2, trace := w.trace ++ [.call (.list path) r.1.2] })

/-- The call `store.VaultClient.Logical().Delete(path)`. -/
def callDelete {σ : Type} (b : Backend σ) (path : String) (w : World σ) : Reply × World σ :=
  let r := b.Delete path w.store
  (r.1, { w with store := r.2, trace := w.trace ++ [.call (.delete path) r.1.2] })

/-- The call `store.VaultClient.Logical().Read(path)`. -/
def callRead {σ : Type} (b : Backend σ) (path : String) (w : World σ) : Reply × World σ :=
  let r := b.Read path w.store
  (r.1, { w with store := r.2, trace := w.trace ++ [.call (.read path) r.1.2] })

/-- The call `store.VaultClient.Logical().Write(path, data)`. -/
def callWrite {σ : Type} (b : Backend σ) (path : String) (data : Data) (w : World σ) :
    Reply × World σ :=
  let r := b.Write path data w.store
  (r.1, { w with store := r.2, trace := w.trace ++ [.call (.write path data) r.1.2] })

/-! ## The path normalizer -/

/-- The character class `[A-Za-z0-9]`. -/
def isAlnum (c : Char) : Bool :=
  ('A' ≤ c && c ≤ 'Z') || ('a' ≤ c && c ≤ 'z') || ('0' ≤ c && c ≤ '9')

/-- A match of the regular expression `^([A-Za-z0-9]*)/` (the variable
`vaultPath`) on the input: the text of group 1 and the input after the match.
The star is greedy and the class excludes `/`, so the only candidate is the
longest run of class characters at the start, followed by `/`. -/
def vaultPathMatch (s : List Char) : Option (List Char × List Char) :=
  match s.dropWhile isAlnum with
  | '/' :: rest => some (s.takeWhile isAlnum, rest)
  | _ => none

/-- The expression `vaultPath.ReplaceAllString(path, "$1/metadata/$2")`.  The
pattern is anchored at the start of the text, so there is at most one match; the
expression has no second group, so `$2` expands to the empty string; the text
after the match is copied. -/
def normalizePath (path : String) : String :=
  match vaultPathMatch path.data with
  | some (g1, rest) => String.mk (g1 ++ "/metadata/".data ++ [] ++ rest)
  | none => path

/-- The function `isDirectory`: `strings.HasSuffix(key, "/")`. -/
def isDirectory (key : String) : Bool :=
  "/".data.isSuffixOf key.data

/-! ## Listing -/

/-- The loop of `dataAsList`: `keys = append(keys, k.(string))` for every
element; the type assertion panics on an element that is not a string. -/
def dataAsListLoop : List Val → List String → Outcome (Slice × Option GoError)
  | [], keys => .ret (some keys, none)
  | .str s :: rest, keys => dataAsListLoop rest (keys ++ [s])
  | k :: _, _ => .panic (.notString k)

/-- The function `dataAsList`. -/
def dataAsList (data : Val) : Outcome (Slice × Option GoError) :=
  match data with
  | .list items => dataAsListLoop items []
  | _ => .ret (none, some (.errorf "data is not a list"))

/-- The method `VaultStore.list`. -/
def list {σ : Type} (b : Backend σ) (path : String) (w : World σ) :
    Outcome (Slice × Option GoError) × World σ :=
  match callList b path w with
  | ((_, some err), w1) => (.ret (none, some (.makeError "list" path err)), w1)
  | ((none, none), w1) => (.ret (some [], none), w1)
  | ((some secret, none), w1) =>
    let path := if secret.Data.length = 0 then normalizePath path else path
    match callList b path w1 with
    | ((_, some err), w2) => (.ret (none, some (.makeError "list" path err)), w2)
    | ((none, none), w2) => (.ret (some [], none), w2)
    | ((some secret, none), w2) =>
      match secret.Data.get "keys" with
      | .nil => (.ret (some [], none), w2)
      | data => (dataAsList data, w2)

/-- The body of the `for _, k := range keys` loop of `listRecurse`; `recurse`
is the recursive call `store.listRecurse(fullKey, depth+1)`. -/
def listRecurseLoop {σ : Type}
    (recurse : String → World σ → Outcome (Slice × Option GoError) × World σ)
    (path : String) :
    List String → List String → World σ → Outcome (Slice × Option GoError) × World σ
  | [], flatKeys, w => (.ret (some flatKeys, none), w)
  | k :: keys, flatKeys, w =>
    let fullKey := path ++ k
    if !isDirectory k then
      listRecurseLoop recurse path keys (flatKeys ++ [fullKey]) w
    else
      match recurse fullKey w with
      | (.panic msg, w1) => (.panic msg, w1)
      | (.ret (_, some err), w1) => (.ret (none, some (.makeError "listRecurse" path err)), w1)
      | (.ret (subKeys, none), w1) =>
        listRecurseLoop recurse path keys (flatKeys ++ subKeys.toList) w1

/-- The method `VaultStore.listRecurse`. -/
def listRecurse {σ : Type} (b : Backend σ) (path : String) (depth : Nat) (w : World σ) :
    Outcome (Slice × Option GoError) × World σ :=
  if depth > maxRecurseDepth then
    (.ret (none, some (.makeError "listRecurse" path (.errorf "maximum recurse depth reached"))), w)
  else
    match list b path w with
    | (.panic msg, w1) => (.panic msg, w1)
    | (.ret (_, some err), w1) => (.ret (none, some (.makeError "listRecurse" path err)), w1)
    | (.ret (keys, none), w1) =>
      listRecurseLoop (fun fullKey w2 => listRecurse b fullKey (depth + 1) w2) path
        keys.toList [] w1
termination_by maxRecurseDepth + 1 - depth
decreasing_by
  simp only [maxRecurseDepth] at *
  omega

/-! ## The hierarchy as a tree -/

/-- A node of the hierarchy below a directory: a leaf, or a directory with its
ordered children.  `name` is the child name as a listing of the parent returns
it. -/
inductive Tree where
  | leaf (name : String)
  | dir (name : String) (children : List Tree)

/-- The child name of a node. -/
def Tree.name : Tree → String
  | .leaf name => name
  | .dir name _ => name

mutual
/-- The full paths of the leaves of a node below `parent`, depth first, left to right. -/
def Tree.leafPaths (parent : String) : Tree → List String
  | .leaf name => [parent ++ name]
  | .dir name children => Tree.leafPathsOf (parent ++ name) children
/-- The full paths of the leaves below the directory `path` with the given children. -/
def Tree.leafPathsOf (path : String) : List Tree → List String
  | [] => []
  | t :: ts => t.leafPaths path ++ Tree.leafPathsOf path ts
end

mutual
/-- Number of leaves of a node. -/
def Tree.leaves : Tree → Nat
  | .leaf _ => 1
  | .dir _ children => Tree.leavesOf children
/-- Number of leaves below a directory with the given children. -/
def Tree.leavesOf : List Tree → Nat
  | [] => 0
  | t :: ts => t.leaves + Tree.leavesOf ts
end

mutual
/-- Directory levels of a node: 0 for a leaf. -/
def Tree.nesting : Tree → Nat
  | .leaf _ => 0
  | .dir _ children => Tree.nestingOf children + 1
/-- Nesting depth below a directory: the largest number of directory levels among its children. -/
def Tree.nestingOf : List Tree → Nat
  | [] => 0
  | t :: ts => max t.nesting (Tree.nestingOf ts)
end


/-- The reply of a listing that returns the given child names: a secret whose
field `keys` holds them. -/
def keysSecret (names : List String) : Secret :=
  ⟨[("keys", .list (names.map .str))]⟩

mutual
/-- Directory names end in `/`, leaf names do not. -/
def Tree.wellNamed : Tree → Bool
  | .leaf name => !isDirectory name
  | .dir name children => isDirectory name && Tree.wellNamedAll children
/-- All nodes of a list are well named. -/
def Tree.wellNamedAll : List Tree → Bool
  | [] => true
  | t :: ts => t.wellNamed && Tree.wellNamedAll ts
end

/-- Listing `path` succeeds in every server state, returns the names of
`children` in order and leaves the state alone. -/
def ListsAs {σ : Type} (b : Backend σ) (path : String) (children : List Tree) : Prop :=
  ∀ s, b.List path s = ((some (keysSecret (children.map Tree.name)), none), s)

mutual
/-- Every directory of the node (below `parent`) is listed by the backend with its children. -/
def Tree.Listed {σ : Type} (b : Backend σ) (parent : String) : Tree → Prop
  | .leaf _ => True
  | .dir name children =>
      ListsAs b (parent ++ name) children ∧ Tree.ListedAll b (parent ++ name) children
/-- Every directory among the children of `path` is listed by the backend with its children. -/
def Tree.ListedAll {σ : Type} (b : Backend σ) (path : String) : List Tree → Prop
  | [] => True
  | t :: ts => t.Listed b path ∧ Tree.ListedAll b path ts
end

mutual
/-- The directories of a node below `parent` with the names of their children. -/
def Tree.dirs (parent : String) : Tree → List (String × List String)
  | .leaf _ => []
  | .dir name children =>
      (parent ++ name, children.map Tree.name) :: Tree.dirsOf (parent ++ name) children
/-- The directories below the directory `path` with the names of their children. -/
def Tree.dirsOf (path : String) : List Tree → List (String × List String)
  | [] => []
  | t :: ts => t.dirs path ++ Tree.dirsOf path ts
end

/-- A read-only server that holds the hierarchy `children` below `root`: listing
a directory of the hierarchy returns the names of its children, listing any other
path finds nothing. -/
def treeBackend (root : String) (children : List Tree) : Backend Unit where
  Read := fun _ s => ((none, none), s)
  Write := fun _ _ s => ((none, none), s)
  List := fun path s =>
    match ((root, children.map Tree.name) :: Tree.dirsOf root children).lookup path with
    | some names => ((some (keysSecret names), none), s)
    | none => ((none, none), s)
  Delete := fun _ s => ((none, none), s)

/-- A chain of `n` nested directories `d/` that ends in the leaf `x`. -/
def chain : Nat → List Tree
  | 0 => [.leaf "x"]
  | n + 1 => [.dir "d/" (chain n)]

/-- The hierarchy of the end-to-end scenario below `secret/app/`. -/
def appTree : List Tree :=
  [.leaf "token", .dir "nested/" [.leaf "key"]]

/-! ## Deleting one key -/

/-- The method `VaultStore.Delete`. -/
def Delete {σ : Type} (b : Backend σ) (path : String) (w : World σ) :
    Option GoError × World σ :=
  let w0 := w.emit (.log (.deleteKey path))
  match callDelete b path w0 with
  | ((_, err), w1) =>
    let path := if err ≠ none then normalizePath path else path
    match callDelete b path w1 with
    | ((_, some err), w2) => (some (.makeError "delete" path err), w2)
    | ((_, none), w2) => (none, w2)

/-- The paths of the delete requests of a trace, in order. -/
def deleteCalls : List Event → List String
  | [] => []
  | .call (.delete path) _ :: rest => path :: deleteCalls rest
  | _ :: rest => deleteCalls rest

/-- The paths of the list requests of a trace, in order. -/
def listCalls : List Event → List String
  | [] => []
  | .call (.list path) _ :: rest => path :: listCalls rest
  | _ :: rest => listCalls rest

/-- A server on which every request succeeds and finds nothing. -/
def emptyBackend : Backend Unit where
  Read := fun _ s => ((none, none), s)
  Write := fun _ _ s => ((none, none), s)
  List := fun _ s => ((none, none), s)
  Delete := fun _ s => ((none, none), s)

/-- A world with no effects performed and nothing to read on standard input. -/
def World.init {σ : Type} (s : σ) : World σ := ⟨s, [], []⟩

/-- A versioned server holding the single secret `token` below `kv/app/`: the
listing of the primary path `kv/app/` carries no data fields, the listing of the
metadata path `kv/metadata/app/` returns the child names. -/
def kv2Backend : Backend Unit where
  Read := fun _ s => ((none, none), s)
  Write := fun _ _ s => ((none, none), s)
  List := fun path s =>
    if path = "kv/app/" then ((some ⟨[]⟩, none), s)
    else if path = "kv/metadata/app/" then ((some (keysSecret ["token"]), none), s)
    else ((none, none), s)
  Delete := fun _ s => ((none, none), s)

/-! ## The envelope: `Get` and `Set`

`encoding/base64` is part of the Go standard library.  `StdEncoding` is the
padded base64 encoding of RFC 4648 with the standard alphabet; the definitions
below follow `Encoding.Encode` and `Encoding.decodeQuantum`: three bytes are
assembled into a 24 bit value and cut into four 6 bit digits, the decoder skips
carriage returns and line feeds, insists on full padding, rejects anything after
the padding, and (not being in strict mode) does not look at unused low bits. -/

/-- A byte. -/
abbrev Byte := Fin 256

/-- The alphabet of `base64.StdEncoding`. -/
def encodeStd : String :=
  "ABCDEFGHIJKLMNOPQRSTUVWXYZabcdefghijklmnopqrstuvwxyz0123456789+/"

/-- The table lookup `enc.encode[i]`. -/
def encodeChar (i : Nat) : Char :=
  encodeStd.data.getD i 'A'

/-- The table lookup `enc.decodeMap[c]`; `none` stands for the entry `0xff`. -/
def decodeChar (c : Char) : Option Nat :=
  encodeStd.data.indexOf? c

/-- The function `Encoding.Encode` of `StdEncoding`. -/
def encode : List Byte → List Char
  | a :: b :: c :: rest =>
    let val := a.val * 65536 + b.val * 256 + c.val
    encodeChar (val / 262144 % 64) :: encodeChar (val / 4096 % 64) ::
      encodeChar (val / 64 % 64) :: encodeChar (val % 64) :: encode rest
  | [a, b] =>
    let val := a.val * 65536 + b.val * 256
    [encodeChar (val / 262144 % 64), encodeChar (val / 4096 % 64),
      encodeChar (val / 64 % 64), '=']
  | [a] =>
    let val := a.val * 65536
    [encodeChar (val / 262144 % 64), encodeChar (val / 4096 % 64), '=', '=']
  | [] => []

/-- The function `base64.StdEncoding.EncodeToString`. -/
def EncodeToString (data : List Byte) : String :=
  String.mk (encode data)

/-- The quanta of `Encoding.decodeQuantum` on an input without line breaks;
`none` stands for a `CorruptInputError`. -/
def decodeQuanta : List Char → Option (List Byte)
  | [] => some []
  | c0 :: c1 :: c2 :: c3 :: rest =>
    match decodeChar c0, decodeChar c1 with
    | some d0, some d1 =>
      match decodeChar c2, decodeChar c3 with
      | some d2, some d3 =>
        let val := d0 * 262144 + d1 * 4096 + d2 * 64 + d3
        match decodeQuanta rest with
        | some bytes =>
          some (Fin.ofNat (val / 65536) :: Fin.ofNat (val / 256) :: Fin.ofNat val :: bytes)
        | none => none
      | some d2, none =>
        let val := d0 * 262144 + d1 * 4096 + d2 * 64
        if c3 = '=' ∧ rest = [] then some [Fin.ofNat (val / 65536), Fin.ofNat (val / 256)]
        else none
      | none, _ =>
        let val := d0 * 262144 + d1 * 4096
        if c2 = '=' ∧ c3 = '=' ∧ rest = [] then some [Fin.ofNat (val / 65536)] else none
    | _, _ => none
  | _ => none

/-- The function `base64.StdEncoding.DecodeString`; `none` stands for an error,
a `CorruptInputError`, whose reported offset this model leaves open. -/
def DecodeString (s : String) : Option (List Byte) :=
  decodeQuanta (s.data.filter (fun c => c != '\r' && c != '\n'))

/-- The method `VaultStore.Get`. -/
def Get {σ : Type} (b : Backend σ) (path : String) (w : World σ) :
    Outcome (Option (List Byte) × Option GoError) × World σ :=
  let w0 := w.emit (.log (.getKey path))
  match callRead b path w0 with
  | ((_, some err), w1) => (.ret (none, some (.makeError "get" path err)), w1)
  | ((none, none), w1) => (.ret (none, some (.makeError "get" path errKeyNotExists)), w1)
  | ((some secret, none), w1) =>
    match secret.Data.get dataField with
    | .nil => (.ret (none, some (.makeError "get" path errInvalidValue)), w1)
    | .str encodedData =>
      match DecodeString encodedData with
      | none => (.ret (none, some (.decodeFailed (.corruptInput encodedData))), w1)
      | some decodedData => (.ret (some decodedData, none), w1)
    | x => (.panic (.notString x), w1)

/-- The method `VaultStore.Set`. -/
def Set {σ : Type} (b : Backend σ) (path : String) (data : List Byte) (w : World σ) :
    Option GoError × World σ :=
  let encodedData := EncodeToString data
  let w0 := w.emit (.log (.setKey path encodedData.length))
  let secretData : Data := [(dataField, .str encodedData)]
  match callWrite b path secretData w0 with
  | ((_, some err), w1) => (some (.makeError "set" path err), w1)
  | ((_, none), w1) => (none, w1)

/-- A server that keeps, per path, the data of the writes in its state (newest
first): a read returns what was last written at the path. -/
def memBackend : Backend (List (String × Data)) where
  Read := fun path s =>
    match s.lookup path with
    | some d => ((some ⟨d⟩, none), s)
    | none => ((none, none), s)
  Write := fun path d s => ((none, none), (path, d) :: s)
  List := fun _ s => ((none, none), s)
  Delete := fun path s => ((none, none), s.filter (fun kv => kv.1 != path))

/-- A server on which every read returns a secret with the given data. -/
def readBackend (d : Data) : Backend Unit where
  Read := fun _ s => ((some ⟨d⟩, none), s)
  Write := fun _ _ s => ((none, none), s)
  List := fun _ s => ((none, none), s)
  Delete := fun _ s => ((none, none), s)

/-- A run from the world `w` with result `r` only appends to the trace, and when
a list request among the appended events failed, the result is an error with a
nil slice. -/
def AbortsOnListFailure {σ : Type} (w : World σ)
    (r : Outcome (Slice × Option GoError) × World σ) : Prop :=
  ∃ t, r.2.trace = w.trace ++ t ∧
    ((∃ p err, Event.call (.list p) (some err) ∈ t) → ∃ e, r.1 = .ret (none, some e))

/-- A server where `kv/` lists the leaf `a` and the directory `sub/`, and the
listing of `kv/sub/` is refused. -/
def failingBackend : Backend Unit where
  Read := fun _ s => ((none, none), s)
  Write := fun _ _ s => ((none, none), s)
  List := fun path s =>
    if path = "kv/" then ((some (keysSecret ["a", "sub/"]), none), s)
    else if path = "kv/sub/" then ((none, some (.client "permission denied")), s)
    else ((none, none), s)
  Delete := fun _ s => ((none, none), s)

/-! ## Deleting everything below a path -/

/-- The loop `for i, k := range keysToDel { fmt.Printf("%d %s\n", i, k) }`. -/
def printFound {σ : Type} : List String → Nat → World σ → World σ
  | [], _, w => w
  | k :: keys, i, w => printFound keys (i + 1) (w.emit (.print (toString i ++ " " ++ k ++ "\n")))

/-- The call `fmt.Scan(&answer)` on the empty string `answer`: the next token of
standard input is stored; at the end of the input `answer` stays empty (the error
of `Scan` is not looked at). -/
def scanAnswer {σ : Type} (w : World σ) : String × World σ :=
  match w.stdin with
  | [] => ("", w.emit .scan)
  | token :: rest => (token, { w.emit .scan with stdin := rest })

/-- The loop `for _, k := range keysToDel` of `DeleteAll`: a failed `Delete` is
logged and the loop goes on. -/
def deleteLoop {σ : Type} (b : Backend σ) : List String → World σ → World σ
  | [], w => w
  | k :: keys, w =>
    match Delete b k w with
    | (some err, w1) => deleteLoop b keys (w1.emit (.log (.failedToDelete k err)))
    | (none, w1) => deleteLoop b keys w1

/-- The method `VaultStore.DeleteAll`. -/
def DeleteAll {σ : Type} (b : Backend σ) (path : String) (w : World σ) :
    Outcome (Option GoError) × World σ :=
  let w0 := w.emit (.log (.collecting path))
  match listRecurse b path 0 w0 with
  | (.panic msg, w1) => (.panic msg, w1)
  | (.ret (_, some err), w1) => (.ret (some (.makeError "deleteAll" path err)), w1)
  | (.ret (keysToDel, none), w1) =>
    if keysToDel.toList.length < 1 then
      (.ret (some (.cantFind path)), w1)
    else
      let w2 := (w1.emit (.print "=================\n")).emit (.print "Found keys:\n")
      let w3 := printFound keysToDel.toList 0 w2
      let w4 := w3.emit (.print "Delete all keys (yes/no): ")
      match scanAnswer w4 with
      | (answer, w5) =>
        let w6 :=
          if answer = "yes" ∨ answer = "y" then
            deleteLoop b keysToDel.toList (w5.emit (.log (.deleting keysToDel.toList.length)))
          else w5
        (.ret none, w6.emit .printSpent)

/-- The keys of the `Delete key` lines of a trace: the calls of `Delete`, in order. -/
def deleteAttempts : List Event → List String
  | [] => []
  | .log (.deleteKey path) :: rest => path :: deleteAttempts rest
  | _ :: rest => deleteAttempts rest

/-- The keys of the `failed to delete` warnings of a trace, in order. -/
def deleteWarnings : List Event → List String
  | [] => []
  | .log (.failedToDelete key _) :: rest => key :: deleteWarnings rest
  | _ :: rest => deleteWarnings rest

/-- A run from the world `w` with result `r` leaves standard input alone and
appends nothing but list requests to the trace. -/
def OnlyLists {σ : Type} (w : World σ) (r : Outcome (Slice × Option GoError) × World σ) : Prop :=
  r.2.stdin = w.stdin ∧
    ∃ t, r.2.trace = w.trace ++ t ∧ ∀ e ∈ t, ∃ p err, e = Event.call (.list p) err

/-- The lines that `printFound` writes for the keys, numbered from `i`. -/
def foundLines : List String → Nat → List Event
  | [], _ => []
  | k :: keys, i => .print (toString i ++ " " ++ k ++ "\n") :: foundLines keys (i + 1)

/-- The events of `DeleteAll` between the enumeration and the answer: the list of
the keys that were found, the question and the read of the answer. -/
def promptEvents (keys : List String) : List Event :=
  [.print "=================\n", .print "Found keys:\n"] ++ foundLines keys 0 ++
    [.print "Delete all keys (yes/no): ", .scan]

/-- Every key twice, in order. -/
def doubled : List String → List String
  | [] => []
  | k :: keys => k :: k :: doubled keys

/-- The events of the delete loop when every delete request succeeds: for each
key the `Delete key` line and two delete requests for the key. -/
def successEvents : List String → List Event
  | [] => []
  | k :: keys =>
    .log (.deleteKey k) :: .call (.delete k) none :: .call (.delete k) none :: successEvents keys

/-! ## The public listing -/

/-- The function `strings.TrimSuffix`. -/
def TrimSuffix (s suffix : String) : String :=
  if suffix.data.isSuffixOf s.data then
    String.mk (s.data.take (s.data.length - suffix.data.length))
  else s

/-- The method `VaultStore.List`. -/
def VaultStore.List {σ : Type} (b : Backend σ) (key : String) (w : World σ) :
    Outcome (Slice × Option GoError) × World σ :=
  let w0 := w.emit (.log (.listKey key))
  match list b key w0 with
  | (.panic msg, w1) => (.panic msg, w1)
  | (.ret (_, some err), w1) => (.ret (none, some (.makeError "list" key err)), w1)
  | (.ret (keys, none), w1) =>
    (.ret (some (keys.toList.map (fun k => TrimSuffix k "/")), none), w1)

/-! ## Paths of the traversal -/

/-- The path reached from `root` by appending the names one after the other,
as `fullKey := fmt.Sprintf("%s%s", path, k)` does along a chain of calls. -/
def descend (root : String) (names : List String) : String :=
  names.foldl (fun path k => path ++ k) root

/-- The event is a list request for a path that lies a chain of directory names
below `path`, or for the normalized form of such a path, and the chain is short
enough for a call at depth `depth` to stay within the depth limit. -/
def ListAt (path : String) (depth : Nat) (e : Event) : Prop :=
  ∃ names err, names.length + depth ≤ maxRecurseDepth ∧
    (∀ n ∈ names, isDirectory n = true) ∧
    (e = .call (.list (descend path names)) err ∨
      e = .call (.list (normalizePath (descend path names))) err)

/-- The name is among the child names that the method `list` returns for the
path in some world. -/
def Returned {σ : Type} (b : Backend σ) (path name : String) : Prop :=
  ∃ (w : World σ) (keys : List String) (w1 : World σ),
    list b path w = (.ret (some keys, none), w1) ∧ name ∈ keys

/-- The names form a chain below `path`: each name was returned by `list` for
the plain concatenation of `path` and the names before it, the last name is a
leaf name and the names before it are directory names. -/
def Chain {σ : Type} (b : Backend σ) : String → List String → Prop
  | _, [] => True
  | path, n :: ns =>
    Returned b path n ∧ (if ns = [] then isDirectory n = false else isDirectory n = true) ∧
      Chain b (path ++ n) ns

/-- The key is `path` followed by a non-empty chain of names that a call at
depth `depth` can reach. -/
def LeafAt {σ : Type} (b : Backend σ) (path : String) (depth : Nat) (key : String) : Prop :=
  ∃ names, names ≠ [] ∧ names.length + depth ≤ maxRecurseDepth + 1 ∧
    key = descend path names ∧ Chain b path names

/-- A run from `w` with result `r` of a call for `path` at depth `depth` only
appends list requests below `path`, and the keys it returns lie below `path`. -/
def Descends {σ : Type} (b : Backend σ) (path : String) (depth : Nat) (w : World σ)
    (r : Outcome (Slice × Option GoError) × World σ) : Prop :=
  ∃ t, r.2.trace = w.trace ++ t ∧ (∀ e ∈ t, ListAt path depth e) ∧
    ∀ keys, r.1 = .ret (some keys, none) → ∀ k ∈ keys, LeafAt b path depth k

/-- A server without bottom: every path lists the single directory `d/`. -/
def loopBackend : Backend Unit where
  Read := fun _ s => ((none, none), s)
  Write := fun _ _ s => ((none, none), s)
  List := fun _ s => ((some (keysSecret ["d/"]), none), s)
  Delete := fun _ s => ((none, none), s)

/-- A versioned server with the secrets `token` and `sub/key` below `kv/app/`:
listings of the primary paths carry no data fields, listings of the metadata
paths return the child names. -/
def kv2DeepBackend : Backend Unit where
  Read := fun _ s => ((none, none), s)
  Write := fun _ _ s => ((none, none), s)
  List := fun path s =>
    if path = "kv/app/" then ((some ⟨[]⟩, none), s)
    else if path = "kv/metadata/app/" then ((some (keysSecret ["token", "sub/"]), none), s)
    else if path = "kv/app/sub/" then ((some ⟨[]⟩, none), s)
    else if path = "kv/metadata/app/sub/" then ((some (keysSecret ["key"]), none), s)
    else ((none, none), s)
  Delete := fun _ s => ((none, none), s)

/-- A hierarchy without bottom: in every state every listing succeeds and
returns names, at least one of them a directory name. -/
def Bottomless {σ : Type} (b : Backend σ) : Prop :=
  ∀ p s, ∃ (names : List String) (s1 : σ),
    b.List p s = ((some (keysSecret names), none), s1) ∧ ∃ n ∈ names, isDirectory n = true

/-- The calls `Delete(k)` for the keys in order, run one after the other from
the server state `s`: each key with the error that its `Delete` returns. -/
def deleteOutcomes {σ : Type} (b : Backend σ) : List String → σ → List (String × Option GoError)
  | [], _ => []
  | k :: keys, s =>
    (k, (Delete b k ⟨s, [], []⟩).1) :: deleteOutcomes b keys (Delete b k ⟨s, [], []⟩).2.store

/-- The keys whose `Delete` returned an error. -/
def failedKeys (outcomes : List (String × Option GoError)) : List String :=
  (outcomes.filter (fun o => o.2.isSome)).map Prod.fst

/-- A server holding the hierarchy `children` below `root` that accepts only as
many delete requests as its state says and refuses all later ones. -/
def quotaBackend (root : String) (children : List Tree) : Backend Nat where
  Read := fun _ s => ((none, none), s)
  Write := fun _ _ s => ((none, none), s)
  List := fun path s => (((treeBackend root children).List path ()).1, s)
  Delete := fun _ s =>
    if s = 0 then ((none, some (.client "quota exceeded")), 0) else ((none, none), s - 1)

/-- A server whose state is the list of the stored paths.  `kv/` lists the leaf
`a`; the delete request for `kv/a` is refused, every other delete request
succeeds and removes the path it names. -/
def flakyBackend : Backend (List String) where
  Read := fun path s => if path ∈ s then ((some ⟨[]⟩, none), s) else ((none, none), s)
  Write := fun _ _ s => ((none, none), s)
  List := fun path s =>
    if path = "kv/" then ((some (keysSecret ["a"]), none), s) else ((none, none), s)
  Delete := fun path s =>
    if path = "kv/a" then ((none, some (.client "permission denied")), s)
    else ((none, none), s.filter (fun p => p != path))

/-! # Properties -/

/-- A list of strings is converted without a panic. -/
theorem dataAsListLoop_strs (names keys : List String) :
    dataAsListLoop (names.map Val.str) keys = .ret (some (keys ++ names), none) := by
  induction names generalizing keys with
  | nil => simp [dataAsListLoop]
  | cons n ns ih => simp [dataAsListLoop, ih]

/-- The method `list` on a directory whose listing returns names. -/
theorem list_keysSecret {σ : Type} (b : Backend σ) (path : String) (names : List String)
    (w : World σ)
    (h : ∀ s, b.List path s = ((some (keysSecret names), none), s)) :
    list b path w =
      (.ret (some names, none),
        (w.emit (.call (.list path) none)).emit (.call (.list path) none)) := by
  simp [list, callList, h, keysSecret, Data.get, dataAsList, dataAsListLoop_strs, World.emit]

/-- One step of `listRecurse` on a directory whose listing returns names. -/
theorem listRecurse_listed {σ : Type} (b : Backend σ) (path : String) (depth : Nat)
    (names : List String) (w : World σ) (hd : depth ≤ maxRecurseDepth)
    (h : ∀ s, b.List path s = ((some (keysSecret names), none), s)) :
    listRecurse b path depth w =
      listRecurseLoop (fun fullKey w2 => listRecurse b fullKey (depth + 1) w2) path names []
        ((w.emit (.call (.list path) none)).emit (.call (.list path) none)) := by
  rw [listRecurse]
  simp [Nat.not_lt.mpr hd, list_keysSecret b path names w h, Slice.toList]

/-- The loop of `listRecurse` over the children of a tree that is not too deep
appends their leaf paths. -/
theorem listRecurseLoop_tree {σ : Type} (b : Backend σ) (depth : Nat) :
    (children : List Tree) → (path : String) → (flatKeys : List String) → (w : World σ) →
    Tree.wellNamedAll children = true → Tree.ListedAll b path children →
    depth + Tree.nestingOf children ≤ maxRecurseDepth →
    ∃ w1, listRecurseLoop (fun fullKey w2 => listRecurse b fullKey (depth + 1) w2) path
        (children.map Tree.name) flatKeys w
      = (.ret (some (flatKeys ++ Tree.leafPathsOf path children), none), w1)
  | [], path, flatKeys, w, _, _, _ => by
    exact ⟨w, by simp [listRecurseLoop, Tree.leafPathsOf]⟩
  | .leaf name :: ts, path, flatKeys, w, hn, hl, hd => by
    simp only [Tree.wellNamedAll, Tree.wellNamed, Bool.and_eq_true] at hn
    simp only [Tree.ListedAll] at hl
    simp only [Tree.nestingOf] at hd
    obtain ⟨w1, h1⟩ := listRecurseLoop_tree b depth ts path (flatKeys ++ [path ++ name]) w
      hn.2 hl.2 (by omega)
    refine ⟨w1, ?_⟩
    simp [listRecurseLoop, Tree.name, hn.1, h1, Tree.leafPathsOf, Tree.leafPaths]
  | .dir name cs :: ts, path, flatKeys, w, hn, hl, hd => by
    simp only [Tree.wellNamedAll, Tree.wellNamed, Bool.and_eq_true] at hn
    simp only [Tree.ListedAll, Tree.Listed] at hl
    simp only [Tree.nestingOf, Tree.nesting] at hd
    obtain ⟨w1, h1⟩ := listRecurseLoop_tree b (depth + 1) cs (path ++ name) []
      ((w.emit (.call (.list (path ++ name)) none)).emit (.call (.list (path ++ name)) none))
      hn.1.2 hl.1.2 (by omega)
    obtain ⟨w2, h2⟩ := listRecurseLoop_tree b depth ts path
      (flatKeys ++ Tree.leafPathsOf (path ++ name) cs) w1 hn.2 hl.2 (by omega)
    refine ⟨w2, ?_⟩
    have hrec := listRecurse_listed b (path ++ name) (depth + 1) (cs.map Tree.name) w
      (by omega) hl.1.1
    simp [listRecurseLoop, Tree.name, hn.1.1, hrec, h1, h2, Slice.toList, Tree.leafPathsOf,
      Tree.leafPaths]

/-- The tree has as many leaf paths as leaves. -/
theorem leafPathsOf_length (path : String) :
    (children : List Tree) → (Tree.leafPathsOf path children).length = Tree.leavesOf children
  | [] => by simp [Tree.leafPathsOf, Tree.leavesOf]
  | .leaf name :: ts => by
    simp [Tree.leafPathsOf, Tree.leafPaths, Tree.leavesOf, Tree.leaves,
      leafPathsOf_length path ts, Nat.add_comm]
  | .dir name cs :: ts => by
    simp [Tree.leafPathsOf, Tree.leafPaths, Tree.leavesOf, Tree.leaves,
      leafPathsOf_length path ts, leafPathsOf_length (path ++ name) cs]

/-- Claim C1: when the store is a tree (every directory of the hierarchy lists
the names of its children, directory names end in `/`, leaf names do not, and
the leaves have pairwise different paths) whose nesting depth below the root is
at most 10, `listRecurse(root, 0)` returns without error exactly the full leaf
paths, depth first and left to right; there are as many as the tree has leaves
and none occurs twice. -/
theorem listRecurse_tree_leaves {σ : Type} (b : Backend σ) (root : String)
    (children : List Tree) (w : World σ)
    (hnames : Tree.wellNamedAll children = true)
    (hroot : ListsAs b root children)
    (hsub : Tree.ListedAll b root children)
    (hdepth : Tree.nestingOf children ≤ maxRecurseDepth)
    (hdistinct : (Tree.leafPathsOf root children).Nodup) :
    ∃ keys, (listRecurse b root 0 w).1 = .ret (some keys, none) ∧
      keys = Tree.leafPathsOf root children ∧
      keys.length = Tree.leavesOf children ∧ keys.Nodup := by
  obtain ⟨w1, h1⟩ := listRecurseLoop_tree b 0 children root []
    ((w.emit (.call (.list root) none)).emit (.call (.list root) none)) hnames hsub (by omega)
  refine ⟨Tree.leafPathsOf root children, ?_, rfl, leafPathsOf_length root children,
    hdistinct⟩
  rw [listRecurse_listed b root 0 (children.map Tree.name) w (Nat.zero_le _) hroot, h1]
  simp

/-- Witness of C1 on the hierarchy `secret/app/` of the end-to-end scenario. -/
theorem listRecurse_tree_leaves_witness :
    ∃ keys, (listRecurse (treeBackend "secret/app/" appTree) "secret/app/" 0 ⟨(), [], []⟩).1
        = .ret (some keys, none) ∧
      keys = ["secret/app/token", "secret/app/nested/key"] ∧
      keys.length = 2 ∧ keys.Nodup :=
  listRecurse_tree_leaves (treeBackend "secret/app/" appTree) "secret/app/" appTree
    ⟨(), [], []⟩ (by decide) (fun _ => rfl) ⟨trivial, ⟨fun _ => rfl, trivial, trivial⟩, trivial⟩
    (by decide) (by decide)

/-- Delete requests of a concatenated trace. -/
theorem deleteCalls_append (xs ys : List Event) :
    deleteCalls (xs ++ ys) = deleteCalls xs ++ deleteCalls ys := by
  induction xs with
  | nil => rfl
  | cons x xs ih =>
    cases x with
    | call c err => cases c <;> simp [deleteCalls, ih]
    | _ => simp [deleteCalls, ih]

/-- List requests of a concatenated trace. -/
theorem listCalls_append (xs ys : List Event) :
    listCalls (xs ++ ys) = listCalls xs ++ listCalls ys := by
  induction xs with
  | nil => rfl
  | cons x xs ih =>
    cases x with
    | call c err => cases c <;> simp [listCalls, ih]
    | _ => simp [listCalls, ih]

/-- Counterexample to C2: the first delete of `kv/foo` succeeds, and `Delete`
still sends a second delete request for the same path. -/
theorem Delete_second_call_after_success :
    (emptyBackend.Delete "kv/foo" ()).1.2 = none ∧
    deleteCalls (Delete emptyBackend "kv/foo" (World.init ())).2.trace = ["kv/foo", "kv/foo"] := by
  constructor <;> rfl

/-- The result of `Delete` in terms of the two replies of the server. -/
theorem Delete_eq {σ : Type} (b : Backend σ) (path : String) (w : World σ)
    (s1 : Option Secret) (e1 : Option GoError) (st1 : σ)
    (h1 : b.Delete path w.store = ((s1, e1), st1))
    (s2 : Option Secret) (e2 : Option GoError) (st2 : σ)
    (h2 : b.Delete (if e1 = none then path else normalizePath path) st1 = ((s2, e2), st2)) :
    Delete b path w =
      (e2.map (GoError.makeError "delete" (if e1 = none then path else normalizePath path)),
        ⟨st2, w.trace ++ [.log (.deleteKey path), .call (.delete path) e1,
          .call (.delete (if e1 = none then path else normalizePath path)) e2], w.stdin⟩) := by
  simp only [Delete, callDelete, World.emit, h1]
  cases e1 with
  | none =>
    simp only [if_true] at h2
    simp only [ne_eq, not_true_eq_false, if_false, h2, if_true]
    cases e2 <;> simp
  | some err1 =>
    simp only [reduceCtorEq, if_false] at h2
    simp only [ne_eq, reduceCtorEq, not_false_eq_true, if_true, h2, if_false]
    cases e2 <;> simp

/-- Claim C2, amended: `Delete` sends one delete request for the path as given
and then always exactly one more: for the same path when the first request
succeeded, for the normalized metadata form when it failed.  The outcome of the
second request (success, or its error wrapped by `makeError`) is the result. -/
theorem Delete_two_calls {σ : Type} (b : Backend σ) (path : String) (w : World σ) :
    let first := b.Delete path w.store
    let path2 := if first.1.2 = none then path else normalizePath path
    let second := b.Delete path2 first.2
    (Delete b path w).2.trace =
        w.trace ++ [.log (.deleteKey path), .call (.delete path) first.1.2,
          .call (.delete path2) second.1.2] ∧
      deleteCalls (Delete b path w).2.trace = deleteCalls w.trace ++ [path, path2] ∧
      (Delete b path w).2.store = second.2 ∧
      (Delete b path w).1 = second.1.2.map (GoError.makeError "delete" path2) := by
  intro first path2 second
  have key := Delete_eq b path w first.1.1 first.1.2 first.2 rfl
    second.1.1 second.1.2 second.2 rfl
  rw [key]
  refine ⟨rfl, ?_, rfl, rfl⟩
  simp only [deleteCalls_append]
  rfl

/-- Counterexample to C3: the first listing of `kv/foo/` finds nothing (a nil
response), and `list` returns the empty list after that single request, without
a request under the normalized path. -/
theorem list_nil_reply_not_retried :
    (emptyBackend.List "kv/foo/" ()).1 = (none, none) ∧
    listCalls (list emptyBackend "kv/foo/" (World.init ())).2.trace = ["kv/foo/"] ∧
    normalizePath "kv/foo/" ∉ listCalls (list emptyBackend "kv/foo/" (World.init ())).2.trace := by
  refine ⟨rfl, rfl, ?_⟩
  decide

/-- Claim C3, amended: when the first listing returns a response without data
fields, `list` sends exactly one more list request, under the normalized path,
and returns the child names of that second response; when the first listing
returns a nil response, `list` returns the empty list without a second request.
Only names are returned, so the normalized path stays inside `list`. -/
theorem list_fallback_once {σ : Type} (b : Backend σ) (path : String) (w : World σ) :
    (∀ (secret : Secret) (st1 : σ) (s2 : Option Secret) (e2 : Option GoError) (st2 : σ),
      b.List path w.store = ((some secret, none), st1) → secret.Data.length = 0 →
      b.List (normalizePath path) st1 = ((s2, e2), st2) →
      (list b path w).2 = ⟨st2, w.trace ++ [.call (.list path) none,
          .call (.list (normalizePath path)) e2], w.stdin⟩ ∧
      listCalls (list b path w).2.trace = listCalls w.trace ++ [path, normalizePath path] ∧
      (∀ (sec2 : Secret) (names : List String), s2 = some sec2 → e2 = none →
        sec2.Data.get "keys" = .list (names.map .str) →
        (list b path w).1 = .ret (some names, none)) ∧
      (s2 = none → e2 = none → (list b path w).1 = .ret (some [], none)) ∧
      (∀ err, e2 = some err →
        (list b path w).1 = .ret (none, some (.makeError "list" (normalizePath path) err)))) ∧
    (∀ (st1 : σ), b.List path w.store = ((none, none), st1) →
      list b path w = (.ret (some [], none), ⟨st1, w.trace ++ [.call (.list path) none], w.stdin⟩) ∧
      listCalls (list b path w).2.trace = listCalls w.trace ++ [path]) := by
  constructor
  · intro secret st1 s2 e2 st2 h1 hz h2
    have hw : (list b path w).2 = ⟨st2, w.trace ++ [.call (.list path) none,
          .call (.list (normalizePath path)) e2], w.stdin⟩ := by
      simp only [list, callList, h1, hz, if_true, h2]
      cases e2 with
      | some err => simp
      | none =>
        cases s2 with
        | none => simp
        | some sec2 =>
          simp only []
          split <;> simp
    refine ⟨hw, ?_, ?_, ?_, ?_⟩
    · rw [hw]
      simp only [listCalls_append]
      rfl
    · intro sec2 names hs he hk
      subst hs he
      simp [list, callList, h1, hz, h2, hk, dataAsList, dataAsListLoop_strs]
    · intro hs he
      subst hs he
      simp [list, callList, h1, hz, h2]
    · intro err he
      subst he
      simp [list, callList, h1, hz, h2]
  · intro st1 h1
    have hl : list b path w
        = (.ret (some [], none), ⟨st1, w.trace ++ [.call (.list path) none], w.stdin⟩) := by
      simp [list, callList, h1]
    refine ⟨hl, ?_⟩
    rw [hl]
    simp only [listCalls_append]
    rfl

/-- Witness of C3 (amended): on the versioned server the listing of `kv/app/`
is answered from `kv/metadata/app/`; on the empty server there is one request. -/
theorem list_fallback_once_witness :
    (listCalls (list kv2Backend "kv/app/" (World.init ())).2.trace
        = ["kv/app/", "kv/metadata/app/"] ∧
      (list kv2Backend "kv/app/" (World.init ())).1 = .ret (some ["token"], none)) ∧
    listCalls (list emptyBackend "kv/foo/" (World.init ())).2.trace = ["kv/foo/"] := by
  have h := (list_fallback_once kv2Backend "kv/app/" (World.init ())).1 ⟨[]⟩ ()
    (some (keysSecret ["token"])) none () rfl rfl rfl
  exact ⟨⟨h.2.1, h.2.2.1 (keysSecret ["token"]) ["token"] rfl rfl rfl⟩,
    ((list_fallback_once emptyBackend "kv/foo/" (World.init ())).2 () rfl).2⟩

/-- The separator is not in the class `[A-Za-z0-9]`. -/
theorem isAlnum_slash : isAlnum '/' = false := by decide

/-- The match of `vaultPath` on a run of class characters followed by `/`. -/
theorem vaultPathMatch_segment (seg rest : List Char) (h : ∀ c ∈ seg, isAlnum c = true) :
    vaultPathMatch (seg ++ '/' :: rest) = some (seg, rest) := by
  have hd : (seg ++ '/' :: rest).dropWhile isAlnum = '/' :: rest := by
    induction seg with
    | nil => simp [List.dropWhile, isAlnum_slash]
    | cons c cs ih =>
      have hc : isAlnum c = true := h c (List.mem_cons_self _ _)
      simp only [List.cons_append, List.dropWhile, hc]
      exact ih (fun d hd => h d (List.mem_cons_of_mem _ hd))
  have ht : (seg ++ '/' :: rest).takeWhile isAlnum = seg := by
    clear hd
    induction seg with
    | nil => simp [List.takeWhile, isAlnum_slash]
    | cons c cs ih =>
      have hc : isAlnum c = true := h c (List.mem_cons_self _ _)
      simp only [List.cons_append, List.takeWhile_cons, hc, if_true]
      rw [ih (fun d hd => h d (List.mem_cons_of_mem _ hd))]
  simp [vaultPathMatch, hd, ht]

/-- When `vaultPath` matches, the input is a run of class characters followed by `/`. -/
theorem vaultPathMatch_some (s g1 rest : List Char) (h : vaultPathMatch s = some (g1, rest)) :
    s = g1 ++ '/' :: rest ∧ ∀ c ∈ g1, isAlnum c = true := by
  unfold vaultPathMatch at h
  split at h
  · rename_i rest2 heq
    simp only [Option.some.injEq, Prod.mk.injEq] at h
    obtain ⟨h1, h2⟩ := h
    subst h1 h2
    refine ⟨?_, fun c hc => (List.mem_takeWhile_imp hc)⟩
    rw [← heq, List.takeWhile_append_dropWhile]
  · exact absurd h (by simp)

/-- Counterexample to C5: the first segment `my-kv` is not empty and contains no
separator, and the normalizer leaves `my-kv/foo/bar` unchanged. -/
theorem normalizePath_hyphen_segment :
    "my-kv".data ≠ [] ∧ '/' ∉ "my-kv".data ∧
    normalizePath ("my-kv" ++ "/" ++ "foo/bar") ≠ "my-kv" ++ "/metadata/" ++ "foo/bar" ∧
    normalizePath ("my-kv" ++ "/" ++ "foo/bar") = "my-kv/foo/bar" := by
  decide

/-- Claim C5, amended: for every path `segment ++ "/" ++ rest` whose first
segment consists of ASCII letters and digits only, the normalizer returns
`segment ++ "/metadata/" ++ rest`; in particular `kv/foo/bar` becomes
`kv/metadata/foo/bar`. -/
theorem normalizePath_segment (segment rest : String)
    (h : ∀ c ∈ segment.data, isAlnum c = true) :
    normalizePath (segment ++ "/" ++ rest) = segment ++ "/metadata/" ++ rest ∧
    normalizePath "kv/foo/bar" = "kv/metadata/foo/bar" := by
  refine ⟨?_, by decide⟩
  have hdata : (segment ++ "/" ++ rest).data = segment.data ++ '/' :: rest.data := by
    simp [String.data_append]
  unfold normalizePath
  rw [hdata, vaultPathMatch_segment segment.data rest.data h]
  apply String.ext
  simp [String.data_append]

/-- Witness of C5 (amended) on `secret/app/token`. -/
theorem normalizePath_segment_witness :
    normalizePath ("secret" ++ "/" ++ "app/token") = "secret" ++ "/metadata/" ++ "app/token" ∧
    normalizePath "kv/foo/bar" = "kv/metadata/foo/bar" :=
  normalizePath_segment "secret" "app/token" (by decide)

/-- Counterexample to C6: the first segment of `/foo` is empty, and the
normalizer rewrites the path to `/metadata/foo`. -/
theorem normalizePath_empty_segment :
    normalizePath "/foo" = "/metadata/foo" ∧ normalizePath "/foo" ≠ "/foo" := by
  decide

/-- Claim C6, amended: a path that does not start with a possibly empty run of
ASCII letters and digits followed by a separator (for example a path without any
separator) is returned unchanged; the normalizer is a total function and raises
no error. -/
theorem normalizePath_noop (path : String)
    (h : ¬ ∃ segment rest : List Char,
      path.data = segment ++ '/' :: rest ∧ ∀ c ∈ segment, isAlnum c = true) :
    normalizePath path = path := by
  unfold normalizePath
  cases hm : vaultPathMatch path.data with
  | none => rfl
  | some p =>
    obtain ⟨g1, rest⟩ := p
    exact absurd ⟨g1, rest, vaultPathMatch_some path.data g1 rest hm⟩ h

/-- Witness of C6 (amended) on the path `foo`, which has no separator. -/
theorem normalizePath_noop_witness : normalizePath "foo" = "foo" :=
  normalizePath_noop "foo" (by
    rintro ⟨segment, rest, h, -⟩
    have hmem : '/' ∈ "foo".data := by
      rw [h]
      simp
    exact absurd hmem (by decide))

/-- The depth guard: a call with `depth > 10` returns the depth error at once,
without any effect. -/
theorem listRecurse_too_deep {σ : Type} (b : Backend σ) (path : String) (depth : Nat)
    (w : World σ) (h : depth > maxRecurseDepth) :
    listRecurse b path depth w =
      (.ret (none, some (.makeError "listRecurse" path
        (.errorf "maximum recurse depth reached"))), w) := by
  rw [listRecurse]
  simp [h]

/-- The loop of `listRecurse` over the children of a tree that is too deep ends
with the depth error. -/
theorem listRecurseLoop_deep {σ : Type} (b : Backend σ) :
    (children : List Tree) → (depth : Nat) → (path : String) → (flatKeys : List String) →
    (w : World σ) →
    Tree.wellNamedAll children = true → Tree.ListedAll b path children →
    depth ≤ maxRecurseDepth → depth + Tree.nestingOf children > maxRecurseDepth →
    ∃ e w1, listRecurseLoop (fun fullKey w2 => listRecurse b fullKey (depth + 1) w2) path
        (children.map Tree.name) flatKeys w = (.ret (none, some e), w1) ∧
      e.cause = .errorf "maximum recurse depth reached"
  | [], depth, path, flatKeys, w, _, _, hle, hd => by
    simp only [Tree.nestingOf] at hd
    omega
  | .leaf name :: ts, depth, path, flatKeys, w, hn, hl, hle, hd => by
    simp only [Tree.wellNamedAll, Tree.wellNamed, Bool.and_eq_true] at hn
    simp only [Tree.ListedAll] at hl
    simp only [Tree.nestingOf, Tree.nesting] at hd
    obtain ⟨e, w1, h1, hc⟩ := listRecurseLoop_deep b ts depth path (flatKeys ++ [path ++ name]) w
      hn.2 hl.2 hle (by omega)
    refine ⟨e, w1, ?_, hc⟩
    simp [listRecurseLoop, Tree.name, hn.1, h1]
  | .dir name cs :: ts, depth, path, flatKeys, w, hn, hl, hle, hd => by
    simp only [Tree.wellNamedAll, Tree.wellNamed, Bool.and_eq_true] at hn
    simp only [Tree.ListedAll, Tree.Listed] at hl
    simp only [Tree.nestingOf, Tree.nesting] at hd
    by_cases hcs : depth + 1 + Tree.nestingOf cs > maxRecurseDepth
    · by_cases hdep : depth + 1 > maxRecurseDepth
      · refine ⟨.makeError "listRecurse" path (.makeError "listRecurse" (path ++ name)
          (.errorf "maximum recurse depth reached")), w, ?_, ?_⟩
        · simp only [listRecurseLoop, List.map_cons, Tree.name, hn.1.1, Bool.not_true,
            Bool.false_eq_true, if_false, listRecurse_too_deep b (path ++ name) (depth + 1) w hdep]
        · rfl
      · obtain ⟨e, w1, h1, hc⟩ := listRecurseLoop_deep b cs (depth + 1) (path ++ name) []
          ((w.emit (.call (.list (path ++ name)) none)).emit (.call (.list (path ++ name)) none))
          hn.1.2 hl.1.2 (by omega) hcs
        have hrec := listRecurse_listed b (path ++ name) (depth + 1) (cs.map Tree.name) w
          (by omega) hl.1.1
        refine ⟨.makeError "listRecurse" path e, w1, ?_, hc⟩
        simp only [listRecurseLoop, List.map_cons, Tree.name, hn.1.1, Bool.not_true,
          Bool.false_eq_true, if_false, hrec, h1]
    · obtain ⟨w1, h1⟩ := listRecurseLoop_tree b (depth + 1) cs (path ++ name) []
        ((w.emit (.call (.list (path ++ name)) none)).emit (.call (.list (path ++ name)) none))
        hn.1.2 hl.1.2 (by omega)
      obtain ⟨e, w2, h2, hc⟩ := listRecurseLoop_deep b ts depth path
        (flatKeys ++ Tree.leafPathsOf (path ++ name) cs) w1 hn.2 hl.2 hle
        (by simp only [maxRecurseDepth] at *; omega)
      have hrec := listRecurse_listed b (path ++ name) (depth + 1) (cs.map Tree.name) w
        (by simp only [maxRecurseDepth] at *; omega) hl.1.1
      refine ⟨e, w2, ?_, hc⟩
      simp [listRecurseLoop, Tree.name, hn.1.1, hrec, h1, h2, Slice.toList]

/-- Claim C4: when the store is a tree whose nesting depth below the root exceeds
10 (all listings succeed), `listRecurse(root, 0)` returns a nil slice together
with an error whose innermost cause is `maximum recurse depth reached`, which is
not an error of the client; and the guard `depth > 10` is evaluated on entry: a
call at such a depth returns the depth error with no effect, so without any list
request. -/
theorem listRecurse_depth_exceeded {σ : Type} (b : Backend σ) (root : String)
    (children : List Tree) (w : World σ)
    (hnames : Tree.wellNamedAll children = true)
    (hroot : ListsAs b root children)
    (hsub : Tree.ListedAll b root children)
    (hdepth : Tree.nestingOf children > maxRecurseDepth) :
    (∃ e, (listRecurse b root 0 w).1 = .ret (none, some e) ∧
      e.cause = .errorf "maximum recurse depth reached" ∧ ∀ msg, e.cause ≠ .client msg) ∧
    (∀ (path : String) (depth : Nat) (w1 : World σ), depth > maxRecurseDepth →
      listRecurse b path depth w1 =
        (.ret (none, some (.makeError "listRecurse" path
          (.errorf "maximum recurse depth reached"))), w1)) := by
  refine ⟨?_, fun path depth w1 h => listRecurse_too_deep b path depth w1 h⟩
  obtain ⟨e, w1, h1, hc⟩ := listRecurseLoop_deep b children 0 root []
    ((w.emit (.call (.list root) none)).emit (.call (.list root) none)) hnames hsub
    (Nat.zero_le _) (by omega)
  refine ⟨e, ?_, hc, ?_⟩
  · rw [listRecurse_listed b root 0 (children.map Tree.name) w (Nat.zero_le _) hroot, h1]
  · intro msg
    rw [hc]
    simp

/-- Witness of C4: a chain of eleven nested directories below `kv/`. -/
theorem listRecurse_depth_exceeded_witness :
    (∃ e, (listRecurse (treeBackend "kv/" (chain 11)) "kv/" 0 (World.init ())).1
        = .ret (none, some e) ∧
      e.cause = .errorf "maximum recurse depth reached" ∧ ∀ msg, e.cause ≠ .client msg) ∧
    (∀ (path : String) (depth : Nat) (w1 : World Unit), depth > maxRecurseDepth →
      listRecurse (treeBackend "kv/" (chain 11)) path depth w1 =
        (.ret (none, some (.makeError "listRecurse" path
          (.errorf "maximum recurse depth reached"))), w1)) :=
  listRecurse_depth_exceeded (treeBackend "kv/" (chain 11)) "kv/" (chain 11) (World.init ())
    (by decide) (fun _ => rfl)
    (by
      simp only [chain, Tree.ListedAll, Tree.Listed, and_true]
      repeat' constructor
      all_goals (intro s; rfl))
    (by decide)

/-- Decoding a digit of the alphabet gives back its index. -/
theorem decodeChar_encodeChar (i : Nat) (h : i < 64) : decodeChar (encodeChar i) = some i := by
  have key : ∀ j : Fin 64, decodeChar (encodeChar j.val) = some j.val := by decide
  exact key ⟨i, h⟩

/-- The padding character is not a digit of the alphabet. -/
theorem decodeChar_pad : decodeChar '=' = none := by decide

/-- No digit of the alphabet is a line break. -/
theorem encodeChar_not_newline (i : Nat) (h : i < 64) :
    (encodeChar i != '\r' && encodeChar i != '\n') = true := by
  have key : ∀ j : Fin 64, (encodeChar j.val != '\r' && encodeChar j.val != '\n') = true := by
    decide
  exact key ⟨i, h⟩

/-- Truncating the value of a byte to a byte gives the byte. -/
theorem ofNat_byte (a : Byte) (n : Nat) (h : n % 256 = a.val) : (Fin.ofNat n : Byte) = a := by
  apply Fin.ext
  simpa [Fin.ofNat] using h

/-- The encoder emits no line break, so the decoder's filter keeps its output. -/
theorem filter_encode : (data : List Byte) →
    (encode data).filter (fun c => c != '\r' && c != '\n') = encode data
  | [] => by simp [encode]
  | [a] => by
    simp only [encode]
    simp [List.filter, encodeChar_not_newline _ (Nat.mod_lt _ (by decide : 64 > 0))]
  | [a, b] => by
    simp only [encode]
    simp [List.filter, encodeChar_not_newline _ (Nat.mod_lt _ (by decide : 64 > 0))]
  | a :: b :: c :: rest => by
    simp only [encode]
    simp only [List.filter, encodeChar_not_newline _ (Nat.mod_lt _ (by decide : 64 > 0)),
      filter_encode rest]

/-- Cutting a 24 bit value into four 6 bit digits and assembling them again. -/
theorem digits_assemble (v : Nat) (h : v < 16777216) :
    v / 262144 % 64 * 262144 + v / 4096 % 64 * 4096 + v / 64 % 64 * 64 + v % 64 = v := by
  have h1 : v / 64 / 64 = v / 4096 := Nat.div_div_eq_div_mul v 64 64
  have h2 : v / 4096 / 64 = v / 262144 := Nat.div_div_eq_div_mul v 4096 64
  omega

/-- Three digits suffice for a multiple of 64. -/
theorem digits_assemble_two (v : Nat) (h : v < 16777216) (h0 : v % 64 = 0) :
    v / 262144 % 64 * 262144 + v / 4096 % 64 * 4096 + v / 64 % 64 * 64 = v := by
  have h1 : v / 64 / 64 = v / 4096 := Nat.div_div_eq_div_mul v 64 64
  have h2 : v / 4096 / 64 = v / 262144 := Nat.div_div_eq_div_mul v 4096 64
  omega

/-- Two digits suffice for a multiple of 4096. -/
theorem digits_assemble_one (v : Nat) (h : v < 16777216) (h0 : v % 4096 = 0) :
    v / 262144 % 64 * 262144 + v / 4096 % 64 * 4096 = v := by
  have h2 : v / 4096 / 64 = v / 262144 := Nat.div_div_eq_div_mul v 4096 64
  omega

/-- The quanta of an encoding decode to the encoded bytes. -/
theorem decodeQuanta_encode : (data : List Byte) → decodeQuanta (encode data) = some data
  | [] => by simp [encode, decodeQuanta]
  | [a] => by
    have ha := a.isLt
    simp only [encode, decodeQuanta, decodeChar_encodeChar _ (Nat.mod_lt _ (by decide : 64 > 0)),
      decodeChar_pad, and_self, if_true, Option.some.injEq, List.cons.injEq, and_true]
    rw [digits_assemble_one (a.val * 65536) (by omega) (by omega)]
    exact ofNat_byte a _ (by omega)
  | [a, b] => by
    have ha := a.isLt
    have hb := b.isLt
    simp only [encode, decodeQuanta, decodeChar_encodeChar _ (Nat.mod_lt _ (by decide : 64 > 0)),
      decodeChar_pad, and_self, if_true, Option.some.injEq, List.cons.injEq, and_true]
    rw [digits_assemble_two (a.val * 65536 + b.val * 256) (by omega) (by omega)]
    exact ⟨ofNat_byte a _ (by omega), ofNat_byte b _ (by omega)⟩
  | a :: b :: c :: rest => by
    have ha := a.isLt
    have hb := b.isLt
    have hc := c.isLt
    simp only [encode, decodeQuanta, decodeChar_encodeChar _ (Nat.mod_lt _ (by decide : 64 > 0)),
      decodeQuanta_encode rest, Option.some.injEq, List.cons.injEq, and_true]
    rw [digits_assemble (a.val * 65536 + b.val * 256 + c.val) (by omega)]
    exact ⟨ofNat_byte a _ (by omega), ofNat_byte b _ (by omega), ofNat_byte c _ (by omega)⟩

/-- Round trip of the base64 codec. -/
theorem DecodeString_EncodeToString (data : List Byte) :
    DecodeString (EncodeToString data) = some data := by
  simp only [DecodeString, EncodeToString, filter_encode, decodeQuanta_encode]

/-- Claim C7 fails on the code: when the field `data` of the stored value holds
the number 42, or a nested map, `Get` does not return the malformed-value error
but panics in the type assertion `secret.Data[dataField].(string)`. -/
theorem Get_panics_on_non_string :
    (Get (readBackend [("data", .num 42)]) "kv/a" (World.init ())).1
      = .panic (.notString (.num 42)) ∧
    (Get (readBackend [("data", .map [("x", .str "y")])]) "kv/a" (World.init ())).1
      = .panic (.notString (.map [("x", .str "y")])) ∧
    (Get (readBackend [("data", .num 42)]) "kv/a" (World.init ())).1
      ≠ .ret (none, some (.makeError "get" "kv/a" errInvalidValue)) := by
  refine ⟨rfl, rfl, ?_⟩
  intro h
  cases h

/-- `Get` on a reply that carries the envelope of a payload. -/
theorem Get_envelope {σ : Type} (b : Backend σ) (path : String) (B : List Byte) (w : World σ)
    (st : σ)
    (h : b.Read path w.store = ((some ⟨[(dataField, .str (EncodeToString B))]⟩, none), st)) :
    (Get b path w).1 = .ret (some B, none) := by
  simp [Get, callRead, World.emit, h, Data.get, dataField, DecodeString_EncodeToString]

/-- Claim C8: the base64 text that `Set` stores decodes to the payload; `Set`
writes the map with the single field `data` holding that text; `Get` on a reply
carrying this map returns the payload without error; and on a server whose reads
return what was last written, `Get` after `Set` returns the payload. -/
theorem Get_Set_round_trip :
    (∀ B : List Byte, DecodeString (EncodeToString B) = some B) ∧
    (∀ {σ : Type} (b : Backend σ) (path : String) (B : List Byte) (w : World σ),
      (Set b path B w).2.trace = w.trace ++ [.log (.setKey path (EncodeToString B).length),
        .call (.write path [(dataField, .str (EncodeToString B))])
          (b.Write path [(dataField, .str (EncodeToString B))] w.store).1.2]) ∧
    (∀ {σ : Type} (b : Backend σ) (path : String) (B : List Byte) (w : World σ) (st : σ),
      b.Read path w.store = ((some ⟨[(dataField, .str (EncodeToString B))]⟩, none), st) →
      (Get b path w).1 = .ret (some B, none)) ∧
    (∀ (s : List (String × Data)) (path : String) (B : List Byte),
      (Set memBackend path B (World.init s)).1 = none ∧
      (Get memBackend path (Set memBackend path B (World.init s)).2).1
        = .ret (some B, none)) := by
  refine ⟨DecodeString_EncodeToString, ?_, ?_, ?_⟩
  · intro σ b path B w
    simp only [Set, callWrite, World.emit]
    rcases hw : b.Write path [(dataField, .str (EncodeToString B))] w.store with ⟨⟨s1, e1⟩, st1⟩
    cases e1 <;> simp
  · intro σ b path B w st h
    exact Get_envelope b path B w st h
  · intro s path B
    refine ⟨rfl, ?_⟩
    apply Get_envelope memBackend path B _ ((path, [(dataField, .str (EncodeToString B))]) :: s)
    simp [Set, callWrite, World.emit, memBackend, World.init, List.lookup]

/-- Witness of C8 on the payload `Hi` and on the empty payload. -/
theorem Get_Set_round_trip_witness :
    (Get (readBackend [(dataField, .str (EncodeToString [72, 105]))]) "kv/a"
        (World.init ())).1 = .ret (some [72, 105], none) ∧
    (Get memBackend "kv/a" (Set memBackend "kv/a" [] (World.init [])).2).1
      = .ret (some [], none) :=
  ⟨Get_Set_round_trip.2.2.1 (readBackend [(dataField, .str (EncodeToString [72, 105]))])
      "kv/a" [72, 105] (World.init ()) () rfl,
    (Get_Set_round_trip.2.2.2 [] "kv/a" []).2⟩

/-- The method `list` aborts on a failed list request. -/
theorem list_aborts {σ : Type} (b : Backend σ) (path : String) (w : World σ) :
    AbortsOnListFailure w (list b path w) := by
  unfold AbortsOnListFailure
  rcases h1 : b.List path w.store with ⟨⟨s1, e1⟩, st1⟩
  cases e1 with
  | some err1 =>
    simp only [list, callList, h1]
    exact ⟨[.call (.list path) (some err1)], rfl, fun _ => ⟨_, rfl⟩⟩
  | none =>
    cases s1 with
    | none =>
      simp only [list, callList, h1]
      refine ⟨[.call (.list path) none], rfl, ?_⟩
      rintro ⟨p, err, hm⟩
      simp at hm
    | some secret =>
      rcases h2 : b.List (if secret.Data.length = 0 then normalizePath path else path) st1
        with ⟨⟨s2, e2⟩, st2⟩
      cases e2 with
      | some err2 =>
        simp only [list, callList, h1, h2]
        exact ⟨[.call (.list path) none,
          .call (.list (if secret.Data.length = 0 then normalizePath path else path))
            (some err2)], by simp, fun _ => ⟨_, rfl⟩⟩
      | none =>
        have hno : ¬ ∃ p err, Event.call (.list p) (some err) ∈
            [Event.call (.list path) none,
              Event.call (.list (if secret.Data.length = 0 then normalizePath path else path))
                none] := by
          rintro ⟨p, err, hm⟩
          simp at hm
        cases s2 with
        | none =>
          simp only [list, callList, h1, h2]
          exact ⟨_, by simp, fun hf => absurd hf hno⟩
        | some sec2 =>
          simp only [list, callList, h1, h2]
          split
          · exact ⟨_, by simp, fun hf => absurd hf hno⟩
          · exact ⟨_, by simp, fun hf => absurd hf hno⟩

/-- A step that ends in an error aborts. -/
theorem aborts_of_error {σ : Type} (w : World σ) (r : Outcome (Slice × Option GoError) × World σ)
    (w1 : World σ) (out : Outcome (Slice × Option GoError)) (e : GoError)
    (h : AbortsOnListFailure w (out, w1)) (hr : r = (.ret (none, some e), w1)) :
    AbortsOnListFailure w r := by
  obtain ⟨t, ht, _⟩ := h
  subst hr
  exact ⟨t, ht, fun _ => ⟨e, rfl⟩⟩

/-- A step that returns without error, followed by a run that aborts, aborts. -/
theorem aborts_trans {σ : Type} (w w1 : World σ) (keys : Slice)
    (r : Outcome (Slice × Option GoError) × World σ)
    (h1 : AbortsOnListFailure w (.ret (keys, none), w1)) (h2 : AbortsOnListFailure w1 r) :
    AbortsOnListFailure w r := by
  obtain ⟨t1, ht1, hf1⟩ := h1
  obtain ⟨t2, ht2, hf2⟩ := h2
  refine ⟨t1 ++ t2, ?_, ?_⟩
  · rw [ht2, ht1, List.append_assoc]
  · rintro ⟨p, err, hm⟩
    rcases List.mem_append.mp hm with hm | hm
    · obtain ⟨e, he⟩ := hf1 ⟨p, err, hm⟩
      simp at he
    · exact hf2 ⟨p, err, hm⟩

/-- The loop of `listRecurse` aborts on a failed list request when the recursive
call does. -/
theorem listRecurseLoop_aborts {σ : Type}
    (recurse : String → World σ → Outcome (Slice × Option GoError) × World σ)
    (hrec : ∀ p w, AbortsOnListFailure w (recurse p w)) (path : String) :
    ∀ (keys flatKeys : List String) (w : World σ),
      AbortsOnListFailure w (listRecurseLoop recurse path keys flatKeys w) := by
  intro keys
  induction keys with
  | nil =>
    intro flatKeys w
    refine ⟨[], by simp [listRecurseLoop], ?_⟩
    rintro ⟨p, err, hm⟩
    simp at hm
  | cons k ks ih =>
    intro flatKeys w
    simp only [listRecurseLoop]
    by_cases hk : isDirectory k = true
    · simp only [hk, Bool.not_true, Bool.false_eq_true, if_false]
      have h := hrec (path ++ k) w
      rcases hr : recurse (path ++ k) w with ⟨out, w1⟩
      rw [hr] at h
      cases out with
      | panic msg => exact h
      | ret res =>
        obtain ⟨sub, err⟩ := res
        cases err with
        | some e => exact aborts_of_error w _ w1 _ _ h rfl
        | none => exact aborts_trans w w1 sub _ h (ih _ w1)
    · simp only [hk, Bool.not_false, if_true]
      exact ih _ w

/-- The method `listRecurse` aborts on a failed list request. -/
theorem listRecurse_aborts {σ : Type} (b : Backend σ) :
    ∀ (n depth : Nat), maxRecurseDepth + 1 - depth ≤ n → ∀ (path : String) (w : World σ),
      AbortsOnListFailure w (listRecurse b path depth w) := by
  intro n
  induction n with
  | zero =>
    intro depth hn path w
    rw [listRecurse_too_deep b path depth w (by omega)]
    refine ⟨[], by simp, fun _ => ⟨_, rfl⟩⟩
  | succ n ih =>
    intro depth hn path w
    by_cases hd : depth > maxRecurseDepth
    · rw [listRecurse_too_deep b path depth w hd]
      refine ⟨[], by simp, fun _ => ⟨_, rfl⟩⟩
    · rw [listRecurse]
      simp only [hd, dite_false]
      have h := list_aborts b path w
      rcases hr : list b path w with ⟨out, w1⟩
      rw [hr] at h
      cases out with
      | panic msg => exact h
      | ret res =>
        obtain ⟨keys, err⟩ := res
        cases err with
        | some e => exact aborts_of_error w _ w1 _ _ h rfl
        | none =>
          exact aborts_trans w w1 keys _ h
            (listRecurseLoop_aborts _ (fun p w2 => ih (depth + 1) (by omega) p w2) path _ _ w1)

/-- Claim C9: if any list request sent during `listRecurse` fails, at whatever
depth and after however many leaves were found, `listRecurse` returns an error
together with a nil slice, never a list of leaves. -/
theorem listRecurse_list_failure_aborts {σ : Type} (b : Backend σ) (path : String)
    (depth : Nat) (w : World σ)
    (hfail : ∃ p err, Event.call (.list p) (some err) ∈
      (listRecurse b path depth w).2.trace.drop w.trace.length) :
    ∃ e, (listRecurse b path depth w).1 = .ret (none, some e) := by
  obtain ⟨t, ht, hf⟩ := listRecurse_aborts b _ depth (Nat.le_refl _) path w
  rw [ht, List.drop_left] at hfail
  exact hf hfail

/-- The run of `listRecurse` on the server that refuses to list `kv/sub/`. -/
theorem listRecurse_failingBackend_trace :
    (listRecurse failingBackend "kv/" 0 (World.init ())).2.trace =
      [.call (.list "kv/") none, .call (.list "kv/") none,
        .call (.list "kv/sub/") (some (.client "permission denied"))] := by
  have ha : isDirectory "a" = false := by decide
  have hs : isDirectory "sub/" = true := by decide
  have hp : "kv/" ++ "sub/" = "kv/sub/" := by decide
  have hsub : ∀ w : World Unit, list failingBackend "kv/sub/" w =
      (.ret (none, some (.makeError "list" "kv/sub/" (.client "permission denied"))),
        w.emit (.call (.list "kv/sub/") (some (.client "permission denied")))) := fun w => rfl
  rw [listRecurse_listed failingBackend "kv/" 0 ["a", "sub/"] _ (Nat.zero_le _) (fun _ => rfl)]
  simp only [listRecurseLoop, ha, hs, hp, Bool.not_false, Bool.not_true, if_true,
    Bool.false_eq_true, if_false]
  rw [listRecurse]
  simp only [hsub]
  rfl

/-- Witness of C9: `kv/` lists the leaf `a` and then the directory `sub/`, whose
listing fails; the result carries no leaf. -/
theorem listRecurse_list_failure_aborts_witness :
    ∃ e, (listRecurse failingBackend "kv/" 0 (World.init ())).1 = .ret (none, some e) :=
  listRecurse_list_failure_aborts failingBackend "kv/" 0 (World.init ())
    ⟨"kv/sub/", .client "permission denied", by
      rw [listRecurse_failingBackend_trace]
      simp [World.init]⟩

/-- The method `list` only sends list requests. -/
theorem list_onlyLists {σ : Type} (b : Backend σ) (path : String) (w : World σ) :
    OnlyLists w (list b path w) := by
  unfold OnlyLists
  rcases h1 : b.List path w.store with ⟨⟨s1, e1⟩, st1⟩
  have hone : ∀ e ∈ [Event.call (.list path) e1], ∃ p err, e = Event.call (.list p) err := by
    intro e he
    simp only [List.mem_singleton] at he
    exact ⟨_, _, he⟩
  cases e1 with
  | some err1 =>
    simp only [list, callList, h1]
    exact ⟨trivial, _, rfl, hone⟩
  | none =>
    cases s1 with
    | none =>
      simp only [list, callList, h1]
      exact ⟨trivial, _, rfl, hone⟩
    | some secret =>
      rcases h2 : b.List (if secret.Data.length = 0 then normalizePath path else path) st1
        with ⟨⟨s2, e2⟩, st2⟩
      have htwo : ∀ e ∈ [Event.call (.list path) none,
          Event.call (.list (if secret.Data.length = 0 then normalizePath path else path)) e2],
          ∃ p err, e = Event.call (.list p) err := by
        intro e he
        simp only [List.mem_cons, List.mem_singleton, List.not_mem_nil, or_false] at he
        rcases he with he | he
        · exact ⟨_, _, he⟩
        · exact ⟨_, _, he⟩
      cases e2 with
      | some err2 =>
        simp only [list, callList, h1, h2]
        exact ⟨trivial, _, by simp, htwo⟩
      | none =>
        cases s2 with
        | none =>
          simp only [list, callList, h1, h2]
          exact ⟨trivial, _, by simp, htwo⟩
        | some sec2 =>
          simp only [list, callList, h1, h2]
          split
          · exact ⟨rfl, _, by simp, htwo⟩
          · exact ⟨rfl, _, by simp, htwo⟩

/-- Two runs that only send list requests, one after the other. -/
theorem onlyLists_trans {σ : Type} (w w1 : World σ)
    (out : Outcome (Slice × Option GoError))
    (r : Outcome (Slice × Option GoError) × World σ)
    (h1 : OnlyLists w (out, w1)) (h2 : OnlyLists w1 r) : OnlyLists w r := by
  obtain ⟨hs1, t1, ht1, hl1⟩ := h1
  obtain ⟨hs2, t2, ht2, hl2⟩ := h2
  refine ⟨hs2.trans hs1, t1 ++ t2, ?_, ?_⟩
  · rw [ht2, ht1, List.append_assoc]
  · intro e he
    rcases List.mem_append.mp he with he | he
    · exact hl1 e he
    · exact hl2 e he

/-- The result of a run does not matter for `OnlyLists`. -/
theorem onlyLists_result {σ : Type} (w w1 : World σ)
    (out out2 : Outcome (Slice × Option GoError)) (h : OnlyLists w (out, w1)) :
    OnlyLists w (out2, w1) := h

/-- The loop of `listRecurse` only sends list requests when the recursive call does. -/
theorem listRecurseLoop_onlyLists {σ : Type}
    (recurse : String → World σ → Outcome (Slice × Option GoError) × World σ)
    (hrec : ∀ p w, OnlyLists w (recurse p w)) (path : String) :
    ∀ (keys flatKeys : List String) (w : World σ),
      OnlyLists w (listRecurseLoop recurse path keys flatKeys w) := by
  intro keys
  induction keys with
  | nil =>
    intro flatKeys w
    exact ⟨rfl, [], by simp [listRecurseLoop], by simp⟩
  | cons k ks ih =>
    intro flatKeys w
    simp only [listRecurseLoop]
    by_cases hk : isDirectory k = true
    · simp only [hk, Bool.not_true, Bool.false_eq_true, if_false]
      have h := hrec (path ++ k) w
      rcases hr : recurse (path ++ k) w with ⟨out, w1⟩
      rw [hr] at h
      cases out with
      | panic msg => exact h
      | ret res =>
        obtain ⟨sub, err⟩ := res
        cases err with
        | some e => exact onlyLists_result w w1 _ _ h
        | none => exact onlyLists_trans w w1 _ _ h (ih _ w1)
    · simp only [hk, Bool.not_false, if_true]
      exact ih _ w

/-- The method `listRecurse` only sends list requests. -/
theorem listRecurse_onlyLists_aux {σ : Type} (b : Backend σ) :
    ∀ (n depth : Nat), maxRecurseDepth + 1 - depth ≤ n → ∀ (path : String) (w : World σ),
      OnlyLists w (listRecurse b path depth w) := by
  intro n
  induction n with
  | zero =>
    intro depth hn path w
    rw [listRecurse_too_deep b path depth w (by omega)]
    exact ⟨rfl, [], by simp, by simp⟩
  | succ n ih =>
    intro depth hn path w
    by_cases hd : depth > maxRecurseDepth
    · rw [listRecurse_too_deep b path depth w hd]
      exact ⟨rfl, [], by simp, by simp⟩
    · rw [listRecurse]
      simp only [hd, dite_false]
      have h := list_onlyLists b path w
      rcases hr : list b path w with ⟨out, w1⟩
      rw [hr] at h
      cases out with
      | panic msg => exact h
      | ret res =>
        obtain ⟨keys, err⟩ := res
        cases err with
        | some e => exact onlyLists_result w w1 _ _ h
        | none =>
          exact onlyLists_trans w w1 _ _ h
            (listRecurseLoop_onlyLists _ (fun p w2 => ih (depth + 1) (by omega) p w2) path _ _ w1)

/-- The method `listRecurse` leaves standard input alone and only sends list requests. -/
theorem listRecurse_onlyLists {σ : Type} (b : Backend σ) (path : String) (depth : Nat)
    (w : World σ) : OnlyLists w (listRecurse b path depth w) :=
  listRecurse_onlyLists_aux b _ depth (Nat.le_refl _) path w

/-- Calls of `Delete` in a concatenated trace. -/
theorem deleteAttempts_append (xs ys : List Event) :
    deleteAttempts (xs ++ ys) = deleteAttempts xs ++ deleteAttempts ys := by
  induction xs with
  | nil => rfl
  | cons x xs ih =>
    cases x with
    | log l => cases l <;> simp [deleteAttempts, ih]
    | _ => simp [deleteAttempts, ih]

/-- Warnings of a concatenated trace. -/
theorem deleteWarnings_append (xs ys : List Event) :
    deleteWarnings (xs ++ ys) = deleteWarnings xs ++ deleteWarnings ys := by
  induction xs with
  | nil => rfl
  | cons x xs ih =>
    cases x with
    | log l => cases l <;> simp [deleteWarnings, ih]
    | _ => simp [deleteWarnings, ih]

/-- A trace of list requests holds no call of `Delete`, no warning and no delete request. -/
theorem no_delete_in_lists (t : List Event)
    (h : ∀ e ∈ t, ∃ p err, e = Event.call (.list p) err) :
    deleteAttempts t = [] ∧ deleteWarnings t = [] ∧ deleteCalls t = [] := by
  induction t with
  | nil => exact ⟨rfl, rfl, rfl⟩
  | cons x xs ih =>
    obtain ⟨p, err, hx⟩ := h x (List.mem_cons_self _ _)
    have ih2 := ih (fun e he => h e (List.mem_cons_of_mem _ he))
    subst hx
    simpa [deleteAttempts, deleteWarnings, deleteCalls] using ih2

/-- The result of `listRecurse` on a tree that is not too deep. -/
theorem listRecurse_tree_result {σ : Type} (b : Backend σ) (root : String)
    (children : List Tree) (w : World σ)
    (hnames : Tree.wellNamedAll children = true)
    (hroot : ListsAs b root children)
    (hsub : Tree.ListedAll b root children)
    (hdepth : Tree.nestingOf children ≤ maxRecurseDepth) :
    (listRecurse b root 0 w).1 = .ret (some (Tree.leafPathsOf root children), none) := by
  obtain ⟨w1, h1⟩ := listRecurseLoop_tree b 0 children root []
    ((w.emit (.call (.list root) none)).emit (.call (.list root) none)) hnames hsub (by omega)
  rw [listRecurse_listed b root 0 (children.map Tree.name) w (Nat.zero_le _) hroot, h1]
  simp

/-- The world after `printFound`. -/
theorem printFound_eq {σ : Type} :
    ∀ (keys : List String) (i : Nat) (w : World σ),
      printFound keys i w = ⟨w.store, w.trace ++ foundLines keys i, w.stdin⟩ := by
  intro keys
  induction keys with
  | nil =>
    intro i w
    simp [printFound, foundLines]
  | cons k ks ih =>
    intro i w
    simp [printFound, foundLines, ih, World.emit]

/-- The lines of `printFound` hold no request, no log line and no read. -/
theorem foundLines_print : ∀ (keys : List String) (i : Nat),
    ∀ e ∈ foundLines keys i, ∃ text, e = Event.print text := by
  intro keys
  induction keys with
  | nil =>
    intro i e he
    simp [foundLines] at he
  | cons k ks ih =>
    intro i e he
    simp only [foundLines, List.mem_cons] at he
    rcases he with he | he
    · exact ⟨_, he⟩
    · exact ih (i + 1) e he

/-- `DeleteAll` after a successful enumeration of at least one key and an
affirmative answer. -/
theorem DeleteAll_affirmed {σ : Type} (b : Backend σ) (path : String) (w w1 : World σ)
    (keys : Slice) (answer : String) (rest : List String)
    (hr : listRecurse b path 0 (w.emit (.log (.collecting path))) = (.ret (keys, none), w1))
    (hsome : keys.toList ≠ [])
    (hin : w1.stdin = answer :: rest) (hyes : answer = "yes" ∨ answer = "y") :
    DeleteAll b path w = (.ret none,
      (deleteLoop b keys.toList ⟨w1.store, w1.trace ++ promptEvents keys.toList ++
        [.log (.deleting keys.toList.length)], rest⟩).emit .printSpent) := by
  have hlen : ¬ keys.toList.length < 1 := by
    cases hkl : keys.toList with
    | nil => exact absurd hkl hsome
    | cons k ks => simp
  simp only [DeleteAll, hr, hlen, if_false]
  simp only [printFound_eq, scanAnswer, World.emit, hin, hyes,
    if_true, promptEvents, List.append_assoc, List.cons_append, List.nil_append]

/-- `DeleteAll` after a successful enumeration of at least one key and an answer
that is not affirmative. -/
theorem DeleteAll_declined {σ : Type} (b : Backend σ) (path : String) (w w1 : World σ)
    (keys : Slice)
    (hr : listRecurse b path 0 (w.emit (.log (.collecting path))) = (.ret (keys, none), w1))
    (hsome : keys.toList ≠ [])
    (hno : ¬ (w1.stdin.headD "" = "yes" ∨ w1.stdin.headD "" = "y")) :
    DeleteAll b path w = (.ret none,
      ⟨w1.store, w1.trace ++ promptEvents keys.toList ++ [.printSpent], w1.stdin.tail⟩) := by
  have hlen : ¬ keys.toList.length < 1 := by
    cases hkl : keys.toList with
    | nil => exact absurd hkl hsome
    | cons k ks => simp
  cases hs : w1.stdin with
  | nil =>
    rw [hs] at hno
    simp only [List.headD_nil] at hno
    simp only [DeleteAll, hr, hlen, if_false]
    simp only [printFound_eq, scanAnswer, World.emit, hs, hno, if_false,
      promptEvents, List.append_assoc, List.cons_append, List.nil_append, List.tail_nil]
  | cons token rest =>
    rw [hs] at hno
    simp only [List.headD_cons] at hno
    simp only [DeleteAll, hr, hlen, if_false]
    simp only [printFound_eq, scanAnswer, World.emit, hs, hno, if_false,
      promptEvents, List.append_assoc, List.cons_append, List.nil_append, List.tail_cons]

/-- The events between enumeration and answer hold no delete request, no call
of `Delete` and no warning. -/
theorem promptEvents_frame (keys : List String) :
    deleteCalls (promptEvents keys) = [] ∧ deleteAttempts (promptEvents keys) = [] ∧
      deleteWarnings (promptEvents keys) = [] := by
  have hf : ∀ (ks : List String) (i : Nat), deleteCalls (foundLines ks i) = [] ∧
      deleteAttempts (foundLines ks i) = [] ∧ deleteWarnings (foundLines ks i) = [] := by
    intro ks
    induction ks with
    | nil =>
      intro i
      exact ⟨rfl, rfl, rfl⟩
    | cons k ks ih =>
      intro i
      simpa [foundLines, deleteCalls, deleteAttempts, deleteWarnings] using ih (i + 1)
  obtain ⟨h1, h2, h3⟩ := hf keys 0
  simp [promptEvents, deleteCalls_append, deleteAttempts_append, deleteWarnings_append,
    deleteCalls, deleteAttempts, deleteWarnings, h1, h2, h3]

/-- The world after the enumeration step of `DeleteAll`: standard input is
untouched and the trace has grown by the `Collecting information` line and by
list requests. -/
theorem enumeration_frame {σ : Type} (b : Backend σ) (path : String) (w : World σ) :
    ∃ w1 t, listRecurse b path 0 (w.emit (.log (.collecting path)))
        = ((listRecurse b path 0 (w.emit (.log (.collecting path)))).1, w1) ∧
      w1.stdin = w.stdin ∧ w1.trace = w.trace ++ [.log (.collecting path)] ++ t ∧
      ∀ e ∈ t, ∃ p err, e = Event.call (.list p) err := by
  obtain ⟨hs, t, ht, hl⟩ := listRecurse_onlyLists b path 0 (w.emit (.log (.collecting path)))
  exact ⟨_, t, rfl, hs, ht, hl⟩

/-- The delete loop when every delete request succeeds. -/
theorem deleteLoop_all_succeed {σ : Type} (b : Backend σ)
    (hok : ∀ p s, (b.Delete p s).1.2 = none) :
    ∀ (keys : List String) (w : World σ),
      (deleteLoop b keys w).trace = w.trace ++ successEvents keys := by
  intro keys
  induction keys with
  | nil =>
    intro w
    simp [deleteLoop, successEvents]
  | cons k ks ih =>
    intro w
    have h1 := hok k w.store
    have h2 := hok k (b.Delete k w.store).2
    have hd := Delete_eq b k w (b.Delete k w.store).1.1 none (b.Delete k w.store).2
      (by rw [← h1]) (b.Delete k (b.Delete k w.store).2).1.1 none
      (b.Delete k (b.Delete k w.store).2).2 (by simp only [if_true]; rw [← h2])
    simp only [deleteLoop, hd, Option.map_none', ih, successEvents, if_true]
    simp

/-- The requests and the calls of `Delete` among the events of a loop in which
every delete request succeeds. -/
theorem successEvents_frame (keys : List String) :
    deleteCalls (successEvents keys) = doubled keys ∧
      deleteAttempts (successEvents keys) = keys ∧ deleteWarnings (successEvents keys) = [] := by
  induction keys with
  | nil => exact ⟨rfl, rfl, rfl⟩
  | cons k ks ih =>
    obtain ⟨h1, h2, h3⟩ := ih
    simp [successEvents, deleteCalls, deleteAttempts, deleteWarnings, doubled, h1, h2, h3]

/-- There are twice as many doubled keys as keys. -/
theorem doubled_length (keys : List String) : (doubled keys).length = 2 * keys.length := by
  induction keys with
  | nil => rfl
  | cons k ks ih =>
    simp only [doubled, List.length_cons, ih]
    omega

/-- `DeleteAll` on an affirmative answer when every delete request succeeds:
`Delete` is called once per key in discovery order, and the store receives two
delete requests per key. -/
theorem DeleteAll_all_succeed {σ : Type} (b : Backend σ) (path : String) (w : World σ)
    (keys : Slice) (answer : String) (rest : List String)
    (henum : (listRecurse b path 0 (w.emit (.log (.collecting path)))).1 = .ret (keys, none))
    (hsome : keys.toList ≠ [])
    (hin : w.stdin = answer :: rest) (hyes : answer = "yes" ∨ answer = "y")
    (hok : ∀ p s, (b.Delete p s).1.2 = none) :
    (DeleteAll b path w).1 = .ret none ∧
    deleteAttempts (DeleteAll b path w).2.trace = deleteAttempts w.trace ++ keys.toList ∧
    deleteCalls (DeleteAll b path w).2.trace = deleteCalls w.trace ++ doubled keys.toList ∧
    deleteWarnings (DeleteAll b path w).2.trace = deleteWarnings w.trace := by
  obtain ⟨w1, t, hr, hs, ht, hl⟩ := enumeration_frame b path w
  rw [henum] at hr
  obtain ⟨hta, htw, htc⟩ := no_delete_in_lists t hl
  obtain ⟨hp1, hp2, hp3⟩ := promptEvents_frame keys.toList
  obtain ⟨hs1, hs2, hs3⟩ := successEvents_frame keys.toList
  rw [DeleteAll_affirmed b path w w1 keys answer rest hr hsome (hs.trans hin) hyes]
  simp only [World.emit, deleteLoop_all_succeed b hok, ht, deleteAttempts_append,
    deleteCalls_append, deleteWarnings_append, hta, htw, htc, hp1, hp2, hp3, hs1, hs2, hs3]
  simp [deleteAttempts, deleteCalls, deleteWarnings]

/-- Counterexample to C11: in the end-to-end scenario every delete request
succeeds and the answer is `yes`, and the store receives four delete requests,
two for each leaf, not two. -/
theorem DeleteAll_scenario_four_requests :
    (∀ p s, ((treeBackend "secret/app/" appTree).Delete p s).1.2 = none) ∧
    deleteCalls (DeleteAll (treeBackend "secret/app/" appTree) "secret/app/"
        ⟨(), [], ["yes"]⟩).2.trace
      = ["secret/app/token", "secret/app/token", "secret/app/nested/key",
          "secret/app/nested/key"] ∧
    deleteCalls (DeleteAll (treeBackend "secret/app/" appTree) "secret/app/"
        ⟨(), [], ["yes"]⟩).2.trace
      ≠ ["secret/app/token", "secret/app/nested/key"] := by
  have h := (DeleteAll_all_succeed (treeBackend "secret/app/" appTree) "secret/app/"
    ⟨(), [], ["yes"]⟩ (some ["secret/app/token", "secret/app/nested/key"]) "yes" []
    (listRecurse_tree_result _ "secret/app/" appTree _ (by decide) (fun _ => rfl)
      ⟨trivial, ⟨fun _ => rfl, trivial, trivial⟩, trivial⟩ (by decide))
    (by decide) rfl (Or.inl rfl) (fun _ _ => rfl)).2.2.1
  refine ⟨fun _ _ => rfl, h, ?_⟩
  rw [h]
  decide

/-- Claim C11, amended: in the end-to-end scenario `DeleteAll` discovers the
leaves `secret/app/token` and `secret/app/nested/key`; on the answer `yes` with
every delete request succeeding it calls `Delete` exactly twice, on these two
leaves in this order, and each call sends two delete requests for its leaf.  In
general, for K leaves whose delete requests all succeed there are exactly K
calls of `Delete` in discovery order and 2K delete requests, two per leaf. -/
theorem DeleteAll_end_to_end :
    ((listRecurse (treeBackend "secret/app/" appTree) "secret/app/" 0
        (World.emit ⟨(), [], ["yes"]⟩ (.log (.collecting "secret/app/")))).1
      = .ret (some ["secret/app/token", "secret/app/nested/key"], none) ∧
    (DeleteAll (treeBackend "secret/app/" appTree) "secret/app/" ⟨(), [], ["yes"]⟩).1
      = .ret none ∧
    deleteAttempts (DeleteAll (treeBackend "secret/app/" appTree) "secret/app/"
        ⟨(), [], ["yes"]⟩).2.trace = ["secret/app/token", "secret/app/nested/key"] ∧
    deleteCalls (DeleteAll (treeBackend "secret/app/" appTree) "secret/app/"
        ⟨(), [], ["yes"]⟩).2.trace
      = ["secret/app/token", "secret/app/token", "secret/app/nested/key",
          "secret/app/nested/key"]) ∧
    (∀ {σ : Type} (b : Backend σ) (path : String) (w : World σ) (keys : Slice)
      (answer : String) (rest : List String),
      (listRecurse b path 0 (w.emit (.log (.collecting path)))).1 = .ret (keys, none) →
      keys.toList ≠ [] → w.stdin = answer :: rest → (answer = "yes" ∨ answer = "y") →
      (∀ p s, (b.Delete p s).1.2 = none) →
      (DeleteAll b path w).1 = .ret none ∧
      deleteAttempts (DeleteAll b path w).2.trace = deleteAttempts w.trace ++ keys.toList ∧
      deleteCalls (DeleteAll b path w).2.trace = deleteCalls w.trace ++ doubled keys.toList ∧
      (doubled keys.toList).length = 2 * keys.toList.length) := by
  have henum : (listRecurse (treeBackend "secret/app/" appTree) "secret/app/" 0
        (World.emit ⟨(), [], ["yes"]⟩ (.log (.collecting "secret/app/")))).1
      = .ret (some ["secret/app/token", "secret/app/nested/key"], none) :=
    listRecurse_tree_result _ "secret/app/" appTree _ (by decide) (fun _ => rfl)
      ⟨trivial, ⟨fun _ => rfl, trivial, trivial⟩, trivial⟩ (by decide)
  have h := DeleteAll_all_succeed (treeBackend "secret/app/" appTree) "secret/app/"
    ⟨(), [], ["yes"]⟩ (some ["secret/app/token", "secret/app/nested/key"]) "yes" []
    henum (by decide) rfl (Or.inl rfl) (fun _ _ => rfl)
  refine ⟨⟨henum, h.1, h.2.1, h.2.2.1⟩, ?_⟩
  intro σ b path w keys answer rest he hsome hin hyes hok
  have hg := DeleteAll_all_succeed b path w keys answer rest he hsome hin hyes hok
  exact ⟨hg.1, hg.2.1, hg.2.2.1, doubled_length _⟩

/-- Witness of C11 (amended): one leaf below a directory of `kv/`, answer `y`. -/
theorem DeleteAll_end_to_end_witness :
    (DeleteAll (treeBackend "kv/" (chain 1)) "kv/" ⟨(), [], ["y"]⟩).1 = .ret none ∧
    deleteAttempts (DeleteAll (treeBackend "kv/" (chain 1)) "kv/" ⟨(), [], ["y"]⟩).2.trace
      = ["kv/d/x"] ∧
    deleteCalls (DeleteAll (treeBackend "kv/" (chain 1)) "kv/" ⟨(), [], ["y"]⟩).2.trace
      = ["kv/d/x", "kv/d/x"] ∧
    (doubled ["kv/d/x"]).length = 2 * 1 :=
  DeleteAll_end_to_end.2 (treeBackend "kv/" (chain 1)) "kv/" ⟨(), [], ["y"]⟩
    (some ["kv/d/x"]) "y" []
    (listRecurse_tree_result _ "kv/" (chain 1) _ (by decide) (fun _ => rfl)
      ⟨⟨fun _ => rfl, trivial, trivial⟩, trivial⟩ (by decide))
    (by decide) rfl (Or.inr rfl) (fun _ _ => rfl)

/-- The events between enumeration and answer hold no request to the store. -/
theorem promptEvents_no_call (keys : List String) :
    ∀ e ∈ promptEvents keys, ∀ c err, e ≠ Event.call c err := by
  intro e he c err hc
  subst hc
  simp only [promptEvents, List.mem_append, List.mem_cons, List.mem_singleton,
    List.not_mem_nil, or_false, reduceCtorEq, false_or] at he
  obtain ⟨text, ht⟩ := foundLines_print keys 0 _ he
  cases ht

/-- Claim C12: when the enumeration returns at least one leaf and the answer
read from standard input (the empty string at the end of the input) is neither
`yes` nor `y`, `DeleteAll` returns a nil error, never calls `Delete`, and sends
no request to the store other than the list requests of the enumeration. -/
theorem DeleteAll_declined_no_delete {σ : Type} (b : Backend σ) (path : String) (w : World σ)
    (keys : Slice) (answer : String)
    (henum : (listRecurse b path 0 (w.emit (.log (.collecting path)))).1 = .ret (keys, none))
    (hsome : keys.toList ≠ [])
    (hans : answer = w.stdin.headD "") (h1 : answer ≠ "yes") (h2 : answer ≠ "y") :
    (DeleteAll b path w).1 = .ret none ∧
    deleteCalls (DeleteAll b path w).2.trace = deleteCalls w.trace ∧
    deleteAttempts (DeleteAll b path w).2.trace = deleteAttempts w.trace ∧
    ∀ c err, Event.call c err ∈ (DeleteAll b path w).2.trace.drop w.trace.length →
      ∃ p, c = .list p := by
  obtain ⟨w1, t, hr, hs, ht, hl⟩ := enumeration_frame b path w
  rw [henum] at hr
  obtain ⟨hta, -, htc⟩ := no_delete_in_lists t hl
  obtain ⟨hp1, hp2, -⟩ := promptEvents_frame keys.toList
  have hno : ¬ (w1.stdin.headD "" = "yes" ∨ w1.stdin.headD "" = "y") := by
    rw [hs, ← hans]
    exact fun h => h.elim h1 h2
  rw [DeleteAll_declined b path w w1 keys hr hsome hno]
  refine ⟨rfl, ?_, ?_, ?_⟩
  · simp only [ht, deleteCalls_append, htc, hp1]
    simp [deleteCalls]
  · simp only [ht, deleteAttempts_append, hta, hp2]
    simp [deleteAttempts]
  · intro c err hmem
    simp only [ht, List.append_assoc, List.drop_left] at hmem
    rcases List.mem_append.mp hmem with hmem | hmem
    · simp only [List.mem_singleton, reduceCtorEq] at hmem
    · rcases List.mem_append.mp hmem with hmem | hmem
      · obtain ⟨p, err2, he⟩ := hl _ hmem
        cases he
        exact ⟨p, rfl⟩
      · rcases List.mem_append.mp hmem with hmem | hmem
        · exact absurd rfl (promptEvents_no_call keys.toList _ hmem c err)
        · simp only [List.mem_singleton, reduceCtorEq] at hmem

/-- Witness of C12: the answer `Yes` in the end-to-end scenario. -/
theorem DeleteAll_declined_no_delete_witness :
    (DeleteAll (treeBackend "secret/app/" appTree) "secret/app/" ⟨(), [], ["Yes"]⟩).1
      = .ret none ∧
    deleteCalls (DeleteAll (treeBackend "secret/app/" appTree) "secret/app/"
      ⟨(), [], ["Yes"]⟩).2.trace = [] ∧
    deleteAttempts (DeleteAll (treeBackend "secret/app/" appTree) "secret/app/"
      ⟨(), [], ["Yes"]⟩).2.trace = [] ∧
    ∀ c err, Event.call c err ∈ (DeleteAll (treeBackend "secret/app/" appTree) "secret/app/"
      ⟨(), [], ["Yes"]⟩).2.trace.drop 0 → ∃ p, c = .list p :=
  DeleteAll_declined_no_delete (treeBackend "secret/app/" appTree) "secret/app/"
    ⟨(), [], ["Yes"]⟩ (some ["secret/app/token", "secret/app/nested/key"]) "Yes"
    (listRecurse_tree_result _ "secret/app/" appTree _ (by decide) (fun _ => rfl)
      ⟨trivial, ⟨fun _ => rfl, trivial, trivial⟩, trivial⟩ (by decide))
    (by decide) rfl (by decide) (by decide)

/-- Claim C13: when the enumeration succeeds with zero leaves, `DeleteAll`
returns the error `can't find keys to delete: <path>`; standard input is not
read, and nothing but the `Collecting information` line and the list requests
of the enumeration is added to the trace, so no `Delete` runs and no delete
request is sent. -/
theorem DeleteAll_no_keys {σ : Type} (b : Backend σ) (path : String) (w : World σ)
    (keys : Slice)
    (henum : (listRecurse b path 0 (w.emit (.log (.collecting path)))).1 = .ret (keys, none))
    (hnone : keys.toList = []) :
    (DeleteAll b path w).1 = .ret (some (.cantFind path)) ∧
    (∀ store offset,
      (GoError.cantFind path).text store offset = "can't find keys to delete: " ++ path) ∧
    (DeleteAll b path w).2.stdin = w.stdin ∧
    (∃ t, (DeleteAll b path w).2.trace = w.trace ++ [.log (.collecting path)] ++ t ∧
      ∀ e ∈ t, ∃ p err, e = Event.call (.list p) err) ∧
    Event.scan ∉ (DeleteAll b path w).2.trace.drop w.trace.length ∧
    deleteAttempts (DeleteAll b path w).2.trace = deleteAttempts w.trace ∧
    deleteCalls (DeleteAll b path w).2.trace = deleteCalls w.trace := by
  obtain ⟨w1, t, hr, hs, ht, hl⟩ := enumeration_frame b path w
  rw [henum] at hr
  obtain ⟨hta, -, htc⟩ := no_delete_in_lists t hl
  have hd : DeleteAll b path w = (.ret (some (.cantFind path)), w1) := by
    simp only [DeleteAll, hr, hnone, List.length_nil, Nat.lt_one_iff, if_true]
  rw [hd]
  refine ⟨rfl, fun _ _ => rfl, hs, ⟨t, ht, hl⟩, ?_, ?_, ?_⟩
  · simp only [ht, List.append_assoc, List.drop_left]
    intro hmem
    simp only [List.singleton_append, List.mem_cons, reduceCtorEq, false_or] at hmem
    obtain ⟨p, err, he⟩ := hl _ hmem
    cases he
  · simp [ht, deleteAttempts_append, hta, deleteAttempts]
  · simp [ht, deleteCalls_append, htc, deleteCalls]

/-- The run of `listRecurse` on the empty server. -/
theorem listRecurse_emptyBackend (path : String) (w : World Unit) :
    (listRecurse emptyBackend path 0 w).1 = .ret (some [], none) := by
  rw [listRecurse]
  rfl

/-- Witness of C13: the empty server; the answer `yes` stays unread. -/
theorem DeleteAll_no_keys_witness :
    (DeleteAll emptyBackend "kv/" ⟨(), [], ["yes"]⟩).1 = .ret (some (.cantFind "kv/")) ∧
    (DeleteAll emptyBackend "kv/" ⟨(), [], ["yes"]⟩).2.stdin = ["yes"] ∧
    deleteCalls (DeleteAll emptyBackend "kv/" ⟨(), [], ["yes"]⟩).2.trace = [] := by
  have h := DeleteAll_no_keys emptyBackend "kv/" ⟨(), [], ["yes"]⟩ (some [])
    (listRecurse_emptyBackend _ _) rfl
  exact ⟨h.1, h.2.2.1, h.2.2.2.2.2.2⟩

/-- The result of `listRecurse` on the server that refuses to list `kv/sub/`. -/
theorem listRecurse_failingBackend_result (w : World Unit) :
    (listRecurse failingBackend "kv/" 0 w).1 =
      .ret (none, some (.makeError "listRecurse" "kv/" (.makeError "listRecurse" "kv/sub/"
        (.makeError "list" "kv/sub/" (.client "permission denied"))))) := by
  have ha : isDirectory "a" = false := by decide
  have hs : isDirectory "sub/" = true := by decide
  have hp : "kv/" ++ "sub/" = "kv/sub/" := by decide
  have hsub : ∀ w : World Unit, list failingBackend "kv/sub/" w =
      (.ret (none, some (.makeError "list" "kv/sub/" (.client "permission denied"))),
        w.emit (.call (.list "kv/sub/") (some (.client "permission denied")))) := fun w => rfl
  rw [listRecurse_listed failingBackend "kv/" 0 ["a", "sub/"] _ (Nat.zero_le _) (fun _ => rfl)]
  simp only [listRecurseLoop, ha, hs, hp, Bool.not_false, Bool.not_true, if_true,
    Bool.false_eq_true, if_false]
  rw [listRecurse]
  simp only [hsub]
  rfl

/-- Claim C16: when the enumeration fails, whether by a failed list request or
by the depth guard, `DeleteAll` returns the enumeration error wrapped by
`makeError`; standard input is not read, and nothing but the `Collecting
information` line and list requests is added to the trace: no `Delete` runs and
no delete or write request reaches the store. -/
theorem DeleteAll_enumeration_error {σ : Type} (b : Backend σ) (path : String) (w : World σ)
    (keys : Slice) (err : GoError)
    (henum : (listRecurse b path 0 (w.emit (.log (.collecting path)))).1
      = .ret (keys, some err)) :
    (DeleteAll b path w).1 = .ret (some (.makeError "deleteAll" path err)) ∧
    (GoError.makeError "deleteAll" path err).cause = err.cause ∧
    (DeleteAll b path w).2.stdin = w.stdin ∧
    (∃ t, (DeleteAll b path w).2.trace = w.trace ++ [.log (.collecting path)] ++ t ∧
      ∀ e ∈ t, ∃ p e2, e = Event.call (.list p) e2) ∧
    Event.scan ∉ (DeleteAll b path w).2.trace.drop w.trace.length ∧
    (∀ p e2, Event.call (.delete p) e2 ∉ (DeleteAll b path w).2.trace.drop w.trace.length) ∧
    (∀ p d e2, Event.call (.write p d) e2 ∉ (DeleteAll b path w).2.trace.drop w.trace.length) ∧
    deleteAttempts (DeleteAll b path w).2.trace = deleteAttempts w.trace := by
  obtain ⟨w1, t, hr, hs, ht, hl⟩ := enumeration_frame b path w
  rw [henum] at hr
  obtain ⟨hta, -, -⟩ := no_delete_in_lists t hl
  have hd : DeleteAll b path w = (.ret (some (.makeError "deleteAll" path err)), w1) := by
    simp only [DeleteAll, hr]
  have hmem : ∀ e, e ∈ w1.trace.drop w.trace.length →
      e = .log (.collecting path) ∨ ∃ p e2, e = Event.call (.list p) e2 := by
    intro e he
    simp only [ht, List.append_assoc, List.drop_left] at he
    rcases List.mem_append.mp he with he | he
    · exact Or.inl (List.mem_singleton.mp he)
    · exact Or.inr (hl e he)
  rw [hd]
  refine ⟨rfl, rfl, hs, ⟨t, ht, hl⟩, ?_, ?_, ?_, ?_⟩
  · intro h
    rcases hmem _ h with h | ⟨p, e2, h⟩ <;> cases h
  · intro p e2 h
    rcases hmem _ h with h | ⟨p2, e3, h⟩ <;> cases h
  · intro p d e2 h
    rcases hmem _ h with h | ⟨p2, e3, h⟩ <;> cases h
  · simp only [ht, deleteAttempts_append, hta]
    simp [deleteAttempts]

/-- Witness of C16: the listing of `kv/sub/` is refused; the answer `yes` stays
unread and nothing is deleted. -/
theorem DeleteAll_enumeration_error_witness :
    (DeleteAll failingBackend "kv/" ⟨(), [], ["yes"]⟩).1 =
      .ret (some (.makeError "deleteAll" "kv/" (.makeError "listRecurse" "kv/"
        (.makeError "listRecurse" "kv/sub/"
          (.makeError "list" "kv/sub/" (.client "permission denied")))))) ∧
    (DeleteAll failingBackend "kv/" ⟨(), [], ["yes"]⟩).2.stdin = ["yes"] ∧
    deleteAttempts (DeleteAll failingBackend "kv/" ⟨(), [], ["yes"]⟩).2.trace = [] := by
  have h := DeleteAll_enumeration_error failingBackend "kv/" ⟨(), [], ["yes"]⟩ none _
    (listRecurse_failingBackend_result _)
  exact ⟨h.1, h.2.2.1, h.2.2.2.2.2.2.2⟩

/-- Appending to the same text is injective. -/
theorem append_left_cancel (x s1 s2 : String) (h : x ++ s1 = x ++ s2) : s1 = s2 := by
  have hd := congrArg String.data h
  simp only [String.data_append, List.append_cancel_left_eq] at hd
  exact String.ext hd

/-- A text that starts with `failed to d` differs from one that starts with `failed to g`. -/
theorem decode_text_ne_get_text (x path store y : String) :
    "failed to decode data: " ++ x ≠
      "failed to " ++ "get" ++ " key '" ++ path ++ "' from " ++ store ++ ": " ++ y := by
  intro h
  have hd := congrArg String.data h
  simp at hd

/-- Indexing a map without the key gives nil. -/
theorem Data.get_absent (m : Data) (key : String) (h : ∀ kv ∈ m, kv.1 ≠ key) :
    m.get key = .nil := by
  have hf : m.find? (fun kv => kv.1 == key) = none := by
    rw [List.find?_eq_none]
    intro kv hkv
    simpa using h kv hkv
  simp [Data.get, hf]

/-- Claim C14: for a value that exists, `Get` returns the malformed-value error
when the field `data` is absent, and when the field holds a string that is not
valid standard base64 it returns the decode-failure error: the library's
`CorruptInputError` for that string behind the text `failed to decode data: `.
For an absent value it returns the not-found error.  The three errors are
pairwise different, as values and in their texts, whatever the receiver prints
as and whatever offset the library reports. -/
theorem Get_error_kinds {σ : Type} (b : Backend σ) (path : String) (w : World σ) :
    (∀ (secret : Secret) (st : σ), b.Read path w.store = ((some secret, none), st) →
      (∀ kv ∈ secret.Data, kv.1 ≠ dataField) →
      (Get b path w).1 = .ret (none, some (.makeError "get" path errInvalidValue))) ∧
    (∀ (secret : Secret) (st : σ) (encoded : String),
      b.Read path w.store = ((some secret, none), st) →
      secret.Data.get dataField = .str encoded → DecodeString encoded = none →
      (Get b path w).1 = .ret (none, some (.decodeFailed (.corruptInput encoded)))) ∧
    (∀ (st : σ), b.Read path w.store = ((none, none), st) →
      (Get b path w).1 = .ret (none, some (.makeError "get" path errKeyNotExists))) ∧
    (∀ inner : GoError,
      GoError.makeError "get" path errInvalidValue ≠ .decodeFailed inner ∧
      GoError.makeError "get" path errKeyNotExists ≠ .decodeFailed inner ∧
      GoError.makeError "get" path errInvalidValue ≠ .makeError "get" path errKeyNotExists) ∧
    (∀ (store : String) (offset : String → Nat) (encoded : String),
      (GoError.decodeFailed (.corruptInput encoded)).text store offset
        = "failed to decode data: illegal base64 data at input byte " ++
          toString (offset encoded)) ∧
    (∀ (store : String) (offset : String → Nat) (inner : GoError),
      (GoError.decodeFailed inner).text store offset
        = "failed to decode data: " ++ inner.text store offset ∧
      (GoError.makeError "get" path errInvalidValue).text store offset
        ≠ (GoError.decodeFailed inner).text store offset ∧
      (GoError.makeError "get" path errKeyNotExists).text store offset
        ≠ (GoError.decodeFailed inner).text store offset ∧
      (GoError.makeError "get" path errInvalidValue).text store offset
        ≠ (GoError.makeError "get" path errKeyNotExists).text store offset) := by
  refine ⟨?_, ?_, ?_, ?_, ?_, ?_⟩
  · intro secret st h habs
    simp [Get, callRead, World.emit, h, Data.get_absent secret.Data dataField habs]
  · intro secret st encoded h hstr hdec
    simp [Get, callRead, World.emit, h, hstr, hdec]
  · intro st h
    simp [Get, callRead, World.emit, h]
  · intro inner
    refine ⟨by simp, by simp, ?_⟩
    simp [errInvalidValue, errKeyNotExists]
  · intro store offset encoded
    simp only [GoError.text]
    apply String.ext
    simp [String.data_append]
  · intro store offset inner
    refine ⟨rfl, ?_, ?_, ?_⟩
    · simp only [GoError.text]
      exact fun h => decode_text_ne_get_text _ _ _ _ h.symm
    · simp only [GoError.text]
      exact fun h => decode_text_ne_get_text _ _ _ _ h.symm
    · simp only [GoError.text, errKeyNotExists, errInvalidValue]
      intro h
      have h2 := append_left_cancel _ _ _ h
      revert h2
      decide

/-- Witness of C14: a secret without fields, a secret whose field `data` is
`!!!!`, and a path without a value. -/
theorem Get_error_kinds_witness :
    (Get (readBackend []) "kv/a" (World.init ())).1
      = .ret (none, some (.makeError "get" "kv/a" errInvalidValue)) ∧
    (Get (readBackend [("data", .str "!!!!")]) "kv/a" (World.init ())).1
      = .ret (none, some (.decodeFailed (.corruptInput "!!!!"))) ∧
    (Get emptyBackend "kv/a" (World.init ())).1
      = .ret (none, some (.makeError "get" "kv/a" errKeyNotExists)) :=
  ⟨(Get_error_kinds (readBackend []) "kv/a" (World.init ())).1 ⟨[]⟩ () rfl
      (fun kv h => absurd h (List.not_mem_nil kv)),
    (Get_error_kinds (readBackend [("data", .str "!!!!")]) "kv/a" (World.init ())).2.1
      ⟨[("data", .str "!!!!")]⟩ () "!!!!" rfl rfl (by decide),
    (Get_error_kinds emptyBackend "kv/a" (World.init ())).2.2.1 () rfl⟩

/-- The delete loop only appends to the trace, and for every key without a
warning among the appended events a delete request for the key, or for its
normalized form, succeeded. -/
theorem deleteLoop_guarantee {σ : Type} (b : Backend σ) :
    ∀ (keys : List String) (w : World σ),
      ∃ t, (deleteLoop b keys w).trace = w.trace ++ t ∧
        ∀ k ∈ keys, k ∉ deleteWarnings t →
          ∃ p, (p = k ∨ p = normalizePath k) ∧ Event.call (.delete p) none ∈ t := by
  intro keys
  induction keys with
  | nil =>
    intro w
    exact ⟨[], by simp [deleteLoop], fun k hk => absurd hk (List.not_mem_nil k)⟩
  | cons k ks ih =>
    intro w
    have hd := Delete_eq b k w (b.Delete k w.store).1.1 (b.Delete k w.store).1.2
      (b.Delete k w.store).2 rfl _ _ _ rfl
    simp only [deleteLoop, hd]
    cases he2 : (b.Delete (if (b.Delete k w.store).1.2 = none then k else normalizePath k)
        (b.Delete k w.store).2).1.2 with
    | none =>
      simp only [Option.map_none']
      obtain ⟨t, ht, hg⟩ := ih ⟨(b.Delete (if (b.Delete k w.store).1.2 = none then k
          else normalizePath k) (b.Delete k w.store).2).2,
        w.trace ++ [.log (.deleteKey k), .call (.delete k) (b.Delete k w.store).1.2,
          .call (.delete (if (b.Delete k w.store).1.2 = none then k else normalizePath k))
            none], w.stdin⟩
      refine ⟨[.log (.deleteKey k), .call (.delete k) (b.Delete k w.store).1.2,
          .call (.delete (if (b.Delete k w.store).1.2 = none then k else normalizePath k))
            none] ++ t, ?_, ?_⟩
      · rw [ht]
        simp
      · intro k1 hk1 hw
        rcases List.mem_cons.mp hk1 with hk1 | hk1
        · subst hk1
          refine ⟨if (b.Delete k1 w.store).1.2 = none then k1 else normalizePath k1, ?_, ?_⟩
          · by_cases h1 : (b.Delete k1 w.store).1.2 = none
            · exact Or.inl (by simp [h1])
            · exact Or.inr (by simp [h1])
          · simp
        · have hw2 : k1 ∉ deleteWarnings t := by
            simpa [deleteWarnings_append, deleteWarnings] using hw
          obtain ⟨p, hp, hm⟩ := hg k1 hk1 hw2
          exact ⟨p, hp, List.mem_append_right _ hm⟩
    | some err =>
      simp only [Option.map_some']
      obtain ⟨t, ht, hg⟩ := ih (World.emit ⟨(b.Delete (if (b.Delete k w.store).1.2 = none
          then k else normalizePath k) (b.Delete k w.store).2).2,
        w.trace ++ [.log (.deleteKey k), .call (.delete k) (b.Delete k w.store).1.2,
          .call (.delete (if (b.Delete k w.store).1.2 = none then k else normalizePath k))
            (some err)], w.stdin⟩ (.log (.failedToDelete k (.makeError "delete"
              (if (b.Delete k w.store).1.2 = none then k else normalizePath k) err))))
      refine ⟨[.log (.deleteKey k), .call (.delete k) (b.Delete k w.store).1.2,
          .call (.delete (if (b.Delete k w.store).1.2 = none then k else normalizePath k))
            (some err), .log (.failedToDelete k (.makeError "delete"
              (if (b.Delete k w.store).1.2 = none then k else normalizePath k) err))] ++ t,
        ?_, ?_⟩
      · rw [ht]
        simp [World.emit]
      · intro k1 hk1 hw
        have hw2 : k1 ≠ k ∧ k1 ∉ deleteWarnings t := by
          simpa [deleteWarnings_append, deleteWarnings] using hw
        rcases List.mem_cons.mp hk1 with hk1 | hk1
        · exact absurd hk1 hw2.1
        · obtain ⟨p, hp, hm⟩ := hg k1 hk1 hw2.2
          exact ⟨p, hp, List.mem_append_right _ hm⟩

/-- Claim C15, amended: after `DeleteAll` has run an affirmed batch, for every
leaf of the discovered list without a `failed to delete` warning, a delete
request for the leaf, at its path as given or at its normalized metadata form,
returned success.  This is about the answers of the store; whether the leaf is
gone from the store is left to the store. -/
theorem DeleteAll_best_effort {σ : Type} (b : Backend σ) (path : String) (w : World σ)
    (keys : Slice) (answer : String) (rest : List String)
    (henum : (listRecurse b path 0 (w.emit (.log (.collecting path)))).1 = .ret (keys, none))
    (hsome : keys.toList ≠ [])
    (hin : w.stdin = answer :: rest) (hyes : answer = "yes" ∨ answer = "y") :
    ∀ k ∈ keys.toList,
      k ∉ deleteWarnings ((DeleteAll b path w).2.trace.drop w.trace.length) →
      ∃ p, (p = k ∨ p = normalizePath k) ∧
        Event.call (.delete p) none ∈ (DeleteAll b path w).2.trace.drop w.trace.length := by
  obtain ⟨w1, t0, hr, hs, ht0, hl⟩ := enumeration_frame b path w
  rw [henum] at hr
  obtain ⟨-, htw, -⟩ := no_delete_in_lists t0 hl
  obtain ⟨-, -, hp3⟩ := promptEvents_frame keys.toList
  obtain ⟨t, ht, hg⟩ := deleteLoop_guarantee b keys.toList
    ⟨w1.store, w1.trace ++ promptEvents keys.toList ++ [.log (.deleting keys.toList.length)],
      rest⟩
  have ht2 : (deleteLoop b keys.toList ⟨w1.store, w1.trace ++ promptEvents keys.toList ++
      [.log (.deleting keys.toList.length)], rest⟩).trace
      = w.trace ++ ([.log (.collecting path)] ++ t0 ++ promptEvents keys.toList ++
        [.log (.deleting keys.toList.length)] ++ t) := by
    rw [ht, ht0]
    simp only [List.append_assoc]
  intro k hk hw
  rw [DeleteAll_affirmed b path w w1 keys answer rest hr hsome (hs.trans hin) hyes] at hw ⊢
  simp only [World.emit] at hw ⊢
  rw [ht2, List.append_assoc, List.drop_left] at hw ⊢
  have hw2 : k ∉ deleteWarnings t := by
    simp only [deleteWarnings_append, htw, hp3] at hw
    simpa [deleteWarnings] using hw
  obtain ⟨p, hp, hm⟩ := hg k hk hw2
  refine ⟨p, hp, ?_⟩
  simp [hm]

/-- Witness of C15: in the end-to-end scenario with every delete request
succeeding, a delete request for `secret/app/token` returned success. -/
theorem DeleteAll_best_effort_witness :
    ∃ p, (p = "secret/app/token" ∨ p = normalizePath "secret/app/token") ∧
      Event.call (.delete p) none ∈ (DeleteAll (treeBackend "secret/app/" appTree)
        "secret/app/" ⟨(), [], ["yes"]⟩).2.trace.drop 0 := by
  have henum : (listRecurse (treeBackend "secret/app/" appTree) "secret/app/" 0
        (World.emit ⟨(), [], ["yes"]⟩ (.log (.collecting "secret/app/")))).1
      = .ret (some ["secret/app/token", "secret/app/nested/key"], none) :=
    listRecurse_tree_result _ "secret/app/" appTree _ (by decide) (fun _ => rfl)
      ⟨trivial, ⟨fun _ => rfl, trivial, trivial⟩, trivial⟩ (by decide)
  have hw := (DeleteAll_all_succeed (treeBackend "secret/app/" appTree) "secret/app/"
    ⟨(), [], ["yes"]⟩ (some ["secret/app/token", "secret/app/nested/key"]) "yes" []
    henum (by decide) rfl (Or.inl rfl) (fun _ _ => rfl)).2.2.2
  exact DeleteAll_best_effort (treeBackend "secret/app/" appTree) "secret/app/"
    ⟨(), [], ["yes"]⟩ (some ["secret/app/token", "secret/app/nested/key"]) "yes" []
    henum (by decide) rfl (Or.inl rfl) "secret/app/token" (by decide)
    (by
      have h : "secret/app/token" ∉ deleteWarnings (DeleteAll
          (treeBackend "secret/app/" appTree) "secret/app/" ⟨(), [], ["yes"]⟩).2.trace := by
        rw [hw]
        decide
      exact h)

/-- Claim C18 fails on the code: `strings.TrimSuffix` removes one trailing slash.
When the listing of `kv/` returns the names `a//`, `b/` and `c`, the public
`List` returns `a/`, `b` and `c`: same length and order, but the first key
still ends in `/`.  Keys without a trailing slash are returned unchanged. -/
theorem List_trims_one_slash :
    (VaultStore.List (treeBackend "kv/" [.dir "a//" [], .dir "b/" [], .leaf "c"]) "kv/"
        (World.init ())).1 = .ret (some ["a/", "b", "c"], none) ∧
    isDirectory "a/" = true ∧
    (∀ k : String, isDirectory k = false → TrimSuffix k "/" = k) := by
  refine ⟨rfl, by decide, ?_⟩
  intro k hk
  unfold isDirectory at hk
  simp [TrimSuffix, hk]

/-- A chain below a child is a chain below the parent. -/
theorem descend_cons (path k : String) (names : List String) :
    descend (path ++ k) names = descend path (k :: names) := rfl

/-- A path below `root` starts with `root`. -/
theorem descend_prefix (names : List String) :
    ∀ root : String, ∃ suffix : String, descend root names = root ++ suffix := by
  induction names with
  | nil =>
    intro root
    exact ⟨"", by simp [descend]⟩
  | cons n ns ih =>
    intro root
    obtain ⟨s, hs⟩ := ih (root ++ n)
    refine ⟨n ++ s, ?_⟩
    rw [← descend_cons, hs, String.append_assoc]

/-- A list request below a child directory is a list request below the parent. -/
theorem listAt_of_child (path k : String) (depth : Nat) (e : Event)
    (hk : isDirectory k = true) (h : ListAt (path ++ k) (depth + 1) e) : ListAt path depth e := by
  obtain ⟨names, err, hlen, hdir, he⟩ := h
  refine ⟨k :: names, err, ?_, ?_, ?_⟩
  · simp only [List.length_cons]
    omega
  · intro n hn
    rcases List.mem_cons.mp hn with hn | hn
    · rw [hn]
      exact hk
    · exact hdir n hn
  · rw [← descend_cons]
    exact he

/-- A key below a child directory is a key below the parent. -/
theorem leafAt_of_child {σ : Type} (b : Backend σ) (path k : String) (depth : Nat)
    (key : String) (hret : Returned b path k) (hk : isDirectory k = true)
    (h : LeafAt b (path ++ k) (depth + 1) key) : LeafAt b path depth key := by
  obtain ⟨names, hne, hlen, hkey, hchain⟩ := h
  refine ⟨k :: names, by simp, ?_, ?_, ?_⟩
  · simp only [List.length_cons]
    omega
  · rw [← descend_cons]
    exact hkey
  · simp only [Chain, hne, if_false]
    exact ⟨hret, hk, hchain⟩

/-- The method `list` sends its requests for the path or its normalized form. -/
theorem list_requests {σ : Type} (b : Backend σ) (path : String) (w : World σ) :
    ∃ t, (list b path w).2.trace = w.trace ++ t ∧
      ∀ e ∈ t, ∃ err, e = Event.call (.list path) err ∨
        e = Event.call (.list (normalizePath path)) err := by
  rcases h1 : b.List path w.store with ⟨⟨s1, e1⟩, st1⟩
  have hone : ∀ e ∈ [Event.call (.list path) e1], ∃ err, e = Event.call (.list path) err ∨
      e = Event.call (.list (normalizePath path)) err := by
    intro e he
    exact ⟨e1, Or.inl (List.mem_singleton.mp he)⟩
  cases e1 with
  | some err1 =>
    simp only [list, callList, h1]
    exact ⟨_, rfl, hone⟩
  | none =>
    cases s1 with
    | none =>
      simp only [list, callList, h1]
      exact ⟨_, rfl, hone⟩
    | some secret =>
      rcases h2 : b.List (if secret.Data.length = 0 then normalizePath path else path) st1
        with ⟨⟨s2, e2⟩, st2⟩
      have htwo : ∀ e ∈ [Event.call (.list path) none,
          Event.call (.list (if secret.Data.length = 0 then normalizePath path else path)) e2],
          ∃ err, e = Event.call (.list path) err ∨
            e = Event.call (.list (normalizePath path)) err := by
        intro e he
        simp only [List.mem_cons, List.mem_singleton, List.not_mem_nil, or_false] at he
        rcases he with he | he
        · exact ⟨none, Or.inl he⟩
        · by_cases hz : secret.Data.length = 0
          · simp only [hz, if_true] at he
            exact ⟨e2, Or.inr he⟩
          · simp only [hz, if_false] at he
            exact ⟨e2, Or.inl he⟩
      cases e2 with
      | some err2 =>
        simp only [list, callList, h1, h2]
        exact ⟨_, by simp, htwo⟩
      | none =>
        cases s2 with
        | none =>
          simp only [list, callList, h1, h2]
          exact ⟨_, by simp, htwo⟩
        | some sec2 =>
          simp only [list, callList, h1, h2]
          split
          · exact ⟨_, by simp, htwo⟩
          · exact ⟨_, by simp, htwo⟩

/-- The loop of `listRecurse` stays below its path when the recursive call does. -/
theorem listRecurseLoop_descends {σ : Type}
    (recurse : String → World σ → Outcome (Slice × Option GoError) × World σ)
    (b : Backend σ) (path : String) (depth : Nat) (hd : depth ≤ maxRecurseDepth)
    (hrec : ∀ k w, Descends b (path ++ k) (depth + 1) w (recurse (path ++ k) w)) :
    ∀ (keys flatKeys : List String) (w : World σ),
      (∀ k ∈ keys, Returned b path k) → (∀ k ∈ flatKeys, LeafAt b path depth k) →
      ∃ t, (listRecurseLoop recurse path keys flatKeys w).2.trace = w.trace ++ t ∧
        (∀ e ∈ t, ListAt path depth e) ∧
        ∀ ks, (listRecurseLoop recurse path keys flatKeys w).1 = .ret (some ks, none) →
          ∀ k ∈ ks, LeafAt b path depth k := by
  intro keys
  induction keys with
  | nil =>
    intro flatKeys w _ hflat
    refine ⟨[], by simp [listRecurseLoop], by simp, ?_⟩
    intro ks hks k hk
    simp only [listRecurseLoop, Outcome.ret.injEq, Prod.mk.injEq, Option.some.injEq,
      and_true] at hks
    subst hks
    exact hflat k hk
  | cons k ks ih =>
    intro flatKeys w hkeys hflat
    have hkret : Returned b path k := hkeys k (List.mem_cons_self _ _)
    have hksret : ∀ k2 ∈ ks, Returned b path k2 :=
      fun k2 h2 => hkeys k2 (List.mem_cons_of_mem _ h2)
    simp only [listRecurseLoop]
    by_cases hk : isDirectory k = true
    · simp only [hk, Bool.not_true, Bool.false_eq_true, if_false]
      obtain ⟨t1, ht1, he1, hk1⟩ := hrec k w
      rcases hr : recurse (path ++ k) w with ⟨out, w1⟩
      rw [hr] at ht1 hk1
      simp only at ht1 hk1
      have he1p : ∀ e ∈ t1, ListAt path depth e :=
        fun e he => listAt_of_child path k depth e hk (he1 e he)
      cases out with
      | panic msg =>
        refine ⟨t1, ht1, he1p, ?_⟩
        intro ks2 h
        cases h
      | ret res =>
        obtain ⟨sub, err⟩ := res
        cases err with
        | some e =>
          refine ⟨t1, ht1, he1p, ?_⟩
          intro ks2 h
          cases h
        | none =>
          have hsub : ∀ k2 ∈ flatKeys ++ sub.toList, LeafAt b path depth k2 := by
            intro k2 hk2
            rcases List.mem_append.mp hk2 with hk2 | hk2
            · exact hflat k2 hk2
            · cases sub with
              | none => simp [Slice.toList] at hk2
              | some l => exact leafAt_of_child b path k depth k2 hkret hk (hk1 l rfl k2 hk2)
          obtain ⟨t2, ht2, he2, hk2⟩ := ih (flatKeys ++ sub.toList) w1 hksret hsub
          refine ⟨t1 ++ t2, ?_, ?_, hk2⟩
          · rw [ht2, ht1, List.append_assoc]
          · intro e he
            rcases List.mem_append.mp he with he | he
            · exact he1p e he
            · exact he2 e he
    · simp only [hk, Bool.not_false, if_true]
      apply ih (flatKeys ++ [path ++ k]) w hksret
      intro k2 hk2
      rcases List.mem_append.mp hk2 with hk2 | hk2
      · exact hflat k2 hk2
      · rw [List.mem_singleton.mp hk2]
        refine ⟨[k], by simp, by simp only [List.length_singleton]; omega, rfl, ?_⟩
        simp only [Chain, if_true, and_true]
        exact ⟨hkret, by simpa using hk⟩

/-- The method `listRecurse` stays below its path. -/
theorem listRecurse_descends_aux {σ : Type} (b : Backend σ) :
    ∀ (n depth : Nat), maxRecurseDepth + 1 - depth ≤ n → ∀ (path : String) (w : World σ),
      Descends b path depth w (listRecurse b path depth w) := by
  intro n
  induction n with
  | zero =>
    intro depth hn path w
    rw [listRecurse_too_deep b path depth w (by omega)]
    refine ⟨[], by simp, by simp, ?_⟩
    intro ks h
    cases h
  | succ n ih =>
    intro depth hn path w
    by_cases hd : depth > maxRecurseDepth
    · rw [listRecurse_too_deep b path depth w hd]
      refine ⟨[], by simp, by simp, ?_⟩
      intro ks h
      cases h
    · rw [listRecurse]
      simp only [hd, if_false]
      obtain ⟨t0, ht0, he0⟩ := list_requests b path w
      have he0p : ∀ e ∈ t0, ListAt path depth e := by
        intro e he
        obtain ⟨err, h⟩ := he0 e he
        exact ⟨[], err, by simp only [List.length_nil]; omega, by simp, h⟩
      rcases hr : list b path w with ⟨out, w1⟩
      rw [hr] at ht0
      simp only at ht0
      cases out with
      | panic msg =>
        refine ⟨t0, ht0, he0p, ?_⟩
        intro ks h
        cases h
      | ret res =>
        obtain ⟨keys, err⟩ := res
        cases err with
        | some e =>
          refine ⟨t0, ht0, he0p, ?_⟩
          intro ks h
          cases h
        | none =>
          have hret : ∀ k ∈ keys.toList, Returned b path k := by
            intro k hk
            cases keys with
            | none => simp [Slice.toList] at hk
            | some l => exact ⟨w, l, w1, hr, hk⟩
          obtain ⟨t2, ht2, he2, hk2⟩ := listRecurseLoop_descends
            (fun fullKey w2 => listRecurse b fullKey (depth + 1) w2) b path depth (by omega)
            (fun k w2 => ih (depth + 1) (by omega) (path ++ k) w2) keys.toList [] w1
            hret (by simp)
          refine ⟨t0 ++ t2, ?_, ?_, hk2⟩
          · rw [ht2, ht0, List.append_assoc]
          · intro e he
            rcases List.mem_append.mp he with he | he
            · exact he0p e he
            · exact he2 e he

/-- The method `listRecurse` only sends list requests for paths a chain of
directory names below its path (or their normalized forms), and the keys it
returns are its path followed by a chain of names. -/
theorem listRecurse_descends {σ : Type} (b : Backend σ) (path : String) (depth : Nat)
    (w : World σ) : Descends b path depth w (listRecurse b path depth w) :=
  listRecurse_descends_aux b _ depth (Nat.le_refl _) path w

/-- On a hierarchy without bottom the method `list` returns names with a
directory among them. -/
theorem list_bottomless {σ : Type} (b : Backend σ) (hb : Bottomless b) (path : String)
    (w : World σ) :
    ∃ names w1, list b path w = (.ret (some names, none), w1) ∧
      ∃ n ∈ names, isDirectory n = true := by
  obtain ⟨names1, s1, h1, -⟩ := hb path w.store
  obtain ⟨names2, s2, h2, hdir⟩ := hb path s1
  refine ⟨names2, ⟨s2, w.trace ++ [.call (.list path) none, .call (.list path) none],
    w.stdin⟩, ?_, hdir⟩
  simp [list, callList, h1, h2, keysSecret, Data.get, dataAsList, dataAsListLoop_strs]

/-- The loop of `listRecurse` over names with a directory among them ends in the
depth error when every recursive call does. -/
theorem listRecurseLoop_bottomless {σ : Type}
    (recurse : String → World σ → Outcome (Slice × Option GoError) × World σ)
    (hrec : ∀ p w, ∃ e w1, recurse p w = (.ret (none, some e), w1) ∧
      e.cause = .errorf "maximum recurse depth reached") (path : String) :
    ∀ (keys flatKeys : List String) (w : World σ), (∃ n ∈ keys, isDirectory n = true) →
      ∃ e w1, listRecurseLoop recurse path keys flatKeys w = (.ret (none, some e), w1) ∧
        e.cause = .errorf "maximum recurse depth reached" := by
  intro keys
  induction keys with
  | nil =>
    rintro flatKeys w ⟨n, hn, -⟩
    exact absurd hn (List.not_mem_nil n)
  | cons k ks ih =>
    rintro flatKeys w ⟨n, hn, hdir⟩
    simp only [listRecurseLoop]
    by_cases hk : isDirectory k = true
    · obtain ⟨e, w1, hr, hc⟩ := hrec (path ++ k) w
      simp only [hk, Bool.not_true, Bool.false_eq_true, if_false, hr]
      exact ⟨_, w1, rfl, hc⟩
    · simp only [hk, Bool.not_false, if_true]
      apply ih
      rcases List.mem_cons.mp hn with hn | hn
      · rw [hn] at hdir
        exact absurd hdir hk
      · exact ⟨n, hn, hdir⟩

/-- On a hierarchy without bottom `listRecurse` ends in the depth error. -/
theorem listRecurse_bottomless {σ : Type} (b : Backend σ) (hb : Bottomless b) :
    ∀ (n depth : Nat), maxRecurseDepth + 1 - depth ≤ n → ∀ (path : String) (w : World σ),
      ∃ e w1, listRecurse b path depth w = (.ret (none, some e), w1) ∧
        e.cause = .errorf "maximum recurse depth reached" := by
  intro n
  induction n with
  | zero =>
    intro depth hn path w
    exact ⟨_, w, listRecurse_too_deep b path depth w (by omega), rfl⟩
  | succ n ih =>
    intro depth hn path w
    by_cases hd : depth > maxRecurseDepth
    · exact ⟨_, w, listRecurse_too_deep b path depth w hd, rfl⟩
    · obtain ⟨names, w1, hl, hdir⟩ := list_bottomless b hb path w
      rw [listRecurse]
      simp only [hd, if_false, hl, Slice.toList]
      exact listRecurseLoop_bottomless _ (fun p w2 => ih (depth + 1) (by omega) p w2) path
        names [] w1 hdir

/-- Claim C17: `listRecurse` is a total function, so `listRecurse(root, 0)`
returns on every store.  A call at a depth above 10 returns the depth error at
once, with no list request and no further call, so no call runs deeper than
depth 11; every list request of a call at depth `depth` is for a path at most
`10 - depth` directory names below the path of the call (or for its normalized
form), so list requests are only sent at depths 0 to 10; and on a hierarchy in
which every directory lists a child directory the result is the depth error,
not a list of leaves. -/
theorem listRecurse_bounded {σ : Type} (b : Backend σ) (root : String) (w : World σ) :
    (∀ (path : String) (depth : Nat) (w1 : World σ), depth > maxRecurseDepth →
      listRecurse b path depth w1 =
        (.ret (none, some (.makeError "listRecurse" path
          (.errorf "maximum recurse depth reached"))), w1)) ∧
    (∀ (path : String) (depth : Nat) (w1 : World σ) (p : String) (err : Option GoError),
      Event.call (.list p) err ∈ (listRecurse b path depth w1).2.trace.drop w1.trace.length →
      ∃ names, names.length + depth ≤ maxRecurseDepth ∧ (∀ n ∈ names, isDirectory n = true) ∧
        (p = descend path names ∨ p = normalizePath (descend path names))) ∧
    (Bottomless b →
      ∃ e, (listRecurse b root 0 w).1 = .ret (none, some e) ∧
        e.cause = .errorf "maximum recurse depth reached") := by
  refine ⟨fun path depth w1 h => listRecurse_too_deep b path depth w1 h, ?_, ?_⟩
  · intro path depth w1 p err hmem
    obtain ⟨t, ht, he, -⟩ := listRecurse_descends b path depth w1
    rw [ht, List.drop_left] at hmem
    obtain ⟨names, err2, hlen, hdir, h⟩ := he _ hmem
    refine ⟨names, hlen, hdir, ?_⟩
    rcases h with h | h
    · cases h
      exact Or.inl rfl
    · cases h
      exact Or.inr rfl
  · intro hb
    obtain ⟨e, w1, hr, hc⟩ := listRecurse_bottomless b hb _ 0 (Nat.le_refl _) root w
    exact ⟨e, by rw [hr], hc⟩

/-- Witness of C17: the server on which every path lists the directory `d/`. -/
theorem listRecurse_bounded_witness :
    ∃ e, (listRecurse loopBackend "kv/" 0 (World.init ())).1 = .ret (none, some e) ∧
      e.cause = .errorf "maximum recurse depth reached" :=
  (listRecurse_bounded loopBackend "kv/" (World.init ())).2.2
    (fun _ s => ⟨["d/"], s, rfl, "d/", by simp, by decide⟩)

/-- The run of `listRecurse` on the versioned server with a nested secret:
every listing is answered through the metadata form, and the keys are built
from the primary paths. -/
theorem listRecurse_kv2DeepBackend (w : World Unit) :
    listRecurse kv2DeepBackend "kv/app/" 0 w =
      (.ret (some ["kv/app/token", "kv/app/sub/key"], none),
        ⟨(), w.trace ++ [.call (.list "kv/app/") none, .call (.list "kv/metadata/app/") none,
          .call (.list "kv/app/sub/") none, .call (.list "kv/metadata/app/sub/") none],
          w.stdin⟩) := by
  have ht : isDirectory "token" = false := by decide
  have hs : isDirectory "sub/" = true := by decide
  have hk : isDirectory "key" = false := by decide
  have hp1 : "kv/app/" ++ "token" = "kv/app/token" := by decide
  have hp2 : "kv/app/" ++ "sub/" = "kv/app/sub/" := by decide
  have hp3 : "kv/app/sub/" ++ "key" = "kv/app/sub/key" := by decide
  have hl1 : ∀ w : World Unit, list kv2DeepBackend "kv/app/" w =
      (.ret (some ["token", "sub/"], none),
        (w.emit (.call (.list "kv/app/") none)).emit (.call (.list "kv/metadata/app/") none)) :=
    fun w => rfl
  have hl2 : ∀ w : World Unit, list kv2DeepBackend "kv/app/sub/" w =
      (.ret (some ["key"], none),
        (w.emit (.call (.list "kv/app/sub/") none)).emit
          (.call (.list "kv/metadata/app/sub/") none)) :=
    fun w => rfl
  have h0 : ¬ (0 > maxRecurseDepth) := by decide
  have h1 : ¬ (0 + 1 > maxRecurseDepth) := by decide
  rw [listRecurse]
  simp only [h0, if_false, hl1, Slice.toList, listRecurseLoop, ht, hs, hp1, hp2,
    Bool.not_false, Bool.not_true, if_true, Bool.false_eq_true]
  rw [listRecurse]
  simp only [h1, if_false, hl2, Slice.toList, listRecurseLoop, hk, hp3, Bool.not_false,
    if_true, World.emit, List.nil_append, List.append_assoc, List.cons_append]

/-- Claim C19: every key that `listRecurse(root, 0)` returns starts with the
root as given and is the root followed by a chain of child names, each returned
by the listing of the plain concatenation before it (also when that listing was
answered through the metadata form); and every list request is for such a plain
concatenation of the root with directory names or for its normalized form, so
the rewritten path stays inside one `list` call. -/
theorem listRecurse_keys_below_root {σ : Type} (b : Backend σ) (root : String) (w : World σ)
    (keys : List String) (h : (listRecurse b root 0 w).1 = .ret (some keys, none)) :
    (∀ k ∈ keys, (∃ suffix : String, k = root ++ suffix) ∧
      ∃ names, names ≠ [] ∧ names.length ≤ maxRecurseDepth + 1 ∧ k = descend root names ∧
        Chain b root names) ∧
    (∀ (p : String) (err : Option GoError),
      Event.call (.list p) err ∈ (listRecurse b root 0 w).2.trace.drop w.trace.length →
      ∃ names, (∀ n ∈ names, isDirectory n = true) ∧
        (p = descend root names ∨ p = normalizePath (descend root names))) := by
  obtain ⟨t, ht, he, hk⟩ := listRecurse_descends b root 0 w
  constructor
  · intro k hmem
    obtain ⟨names, hne, hlen, hkey, hchain⟩ := hk keys h k hmem
    obtain ⟨suffix, hs⟩ := descend_prefix names root
    exact ⟨⟨suffix, by rw [hkey, hs]⟩, names, hne, by omega, hkey, hchain⟩
  · intro p err hmem
    rw [ht, List.drop_left] at hmem
    obtain ⟨names, err2, -, hdir, h2⟩ := he _ hmem
    refine ⟨names, hdir, ?_⟩
    rcases h2 with h2 | h2
    · cases h2
      exact Or.inl rfl
    · cases h2
      exact Or.inr rfl

/-- Witness of C19: on the versioned server both listings are answered through
`kv/metadata/...`, and the two keys returned start with `kv/app/`. -/
theorem listRecurse_keys_below_root_witness :
    listCalls (listRecurse kv2DeepBackend "kv/app/" 0 (World.init ())).2.trace
      = ["kv/app/", "kv/metadata/app/", "kv/app/sub/", "kv/metadata/app/sub/"] ∧
    ∀ k ∈ ["kv/app/token", "kv/app/sub/key"], (∃ suffix : String, k = "kv/app/" ++ suffix) ∧
      ∃ names, names ≠ [] ∧ names.length ≤ maxRecurseDepth + 1 ∧
        k = descend "kv/app/" names ∧ Chain kv2DeepBackend "kv/app/" names :=
  ⟨by rw [listRecurse_kv2DeepBackend]; rfl,
    (listRecurse_keys_below_root kv2DeepBackend "kv/app/" (World.init ())
      ["kv/app/token", "kv/app/sub/key"] (by rw [listRecurse_kv2DeepBackend])).1⟩

/-- The loop of `listRecurse` over leaf names appends their full paths. -/
theorem listRecurseLoop_leaves {σ : Type}
    (recurse : String → World σ → Outcome (Slice × Option GoError) × World σ)
    (path : String) :
    ∀ (names flatKeys : List String) (w : World σ), (∀ n ∈ names, isDirectory n = false) →
      listRecurseLoop recurse path names flatKeys w
        = (.ret (some (flatKeys ++ names.map (fun n => path ++ n)), none), w) := by
  intro names
  induction names with
  | nil =>
    intro flatKeys w _
    simp [listRecurseLoop]
  | cons n ns ih =>
    intro flatKeys w h
    have hn : isDirectory n = false := h n (List.mem_cons_self _ _)
    simp only [listRecurseLoop, hn, Bool.not_false, if_true]
    rw [ih _ w (fun m hm => h m (List.mem_cons_of_mem _ hm))]
    simp

/-- The run of `listRecurse` on a directory that holds only leaves. -/
theorem listRecurse_flat {σ : Type} (b : Backend σ) (path : String) (names : List String)
    (w : World σ) (h : ∀ s, b.List path s = ((some (keysSecret names), none), s))
    (hleaf : ∀ n ∈ names, isDirectory n = false) :
    listRecurse b path 0 w = (.ret (some (names.map (fun n => path ++ n)), none),
      (w.emit (.call (.list path) none)).emit (.call (.list path) none)) := by
  rw [listRecurse_listed b path 0 names w (Nat.zero_le _) h,
    listRecurseLoop_leaves _ path names [] _ hleaf]
  simp

/-- The result of `Delete` and the server state after it depend on the server
state only. -/
theorem Delete_store {σ : Type} (b : Backend σ) (k : String) (w : World σ) :
    (Delete b k w).1 = (Delete b k ⟨w.store, [], []⟩).1 ∧
    (Delete b k w).2.store = (Delete b k ⟨w.store, [], []⟩).2.store ∧
    deleteAttempts (Delete b k w).2.trace = deleteAttempts w.trace ++ [k] ∧
    deleteWarnings (Delete b k w).2.trace = deleteWarnings w.trace := by
  rw [Delete_eq b k w (b.Delete k w.store).1.1 (b.Delete k w.store).1.2 (b.Delete k w.store).2 rfl
    _ _ _ rfl,
    Delete_eq b k ⟨w.store, [], []⟩ (b.Delete k w.store).1.1 (b.Delete k w.store).1.2
      (b.Delete k w.store).2 rfl _ _ _ rfl]
  simp [deleteAttempts_append, deleteWarnings_append, deleteAttempts, deleteWarnings]

/-- The delete loop calls `Delete` for every key in order, whatever the earlier
outcomes, and logs one warning for each call that returned an error. -/
theorem deleteLoop_outcomes {σ : Type} (b : Backend σ) :
    ∀ (keys : List String) (w : World σ),
      deleteAttempts (deleteLoop b keys w).trace = deleteAttempts w.trace ++ keys ∧
      deleteWarnings (deleteLoop b keys w).trace
        = deleteWarnings w.trace ++ failedKeys (deleteOutcomes b keys w.store) := by
  intro keys
  induction keys with
  | nil =>
    intro w
    simp [deleteLoop, deleteOutcomes, failedKeys]
  | cons k ks ih =>
    intro w
    obtain ⟨h1, h2, h3, h4⟩ := Delete_store b k w
    simp only [deleteLoop, deleteOutcomes]
    rw [← h1, ← h2]
    rcases hd : Delete b k w with ⟨err, w1⟩
    rw [hd] at h3 h4
    simp only at h3 h4
    cases err with
    | none =>
      obtain ⟨i1, i2⟩ := ih w1
      simp only []
      rw [i1, i2, h3, h4]
      simp [failedKeys]
    | some e =>
      obtain ⟨i1, i2⟩ := ih (w1.emit (.log (.failedToDelete k e)))
      simp only []
      rw [i1, i2]
      simp [World.emit, deleteAttempts_append, deleteWarnings_append, deleteAttempts,
        deleteWarnings, h3, h4, failedKeys]

/-- Every key has an outcome, and the failed keys are among the keys. -/
theorem deleteOutcomes_keys {σ : Type} (b : Backend σ) :
    ∀ (keys : List String) (s : σ),
      (deleteOutcomes b keys s).map Prod.fst = keys ∧
      (failedKeys (deleteOutcomes b keys s)).Sublist keys := by
  intro keys
  induction keys with
  | nil =>
    intro s
    simp [deleteOutcomes, failedKeys]
  | cons k ks ih =>
    intro s
    obtain ⟨h1, h2⟩ := ih (Delete b k ⟨s, [], []⟩).2.store
    refine ⟨by simp [deleteOutcomes, h1], ?_⟩
    simp only [deleteOutcomes, failedKeys, List.filter_cons]
    split
    · exact List.Sublist.cons₂ _ h2
    · exact List.Sublist.cons _ h2

/-- Claim C10: when the enumeration returns K leaves, K at least one, and the
answer read from standard input is `yes` or `y`, `DeleteAll` calls `Delete` for
all K leaves in discovery order, whatever the outcome of the earlier calls and
whatever the server state makes of them; it logs one `failed to delete` warning
for each of the M calls that returned an error and no other, and it returns a
nil error. -/
theorem DeleteAll_tolerates_failures {σ : Type} (b : Backend σ) (path : String) (w : World σ)
    (keys : Slice) (answer : String) (rest : List String) (K M : Nat)
    (henum : (listRecurse b path 0 (w.emit (.log (.collecting path)))).1 = .ret (keys, none))
    (hsome : keys.toList ≠ [])
    (hin : w.stdin = answer :: rest) (hyes : answer = "yes" ∨ answer = "y")
    (hK : keys.toList.length = K)
    (hM : (failedKeys (deleteOutcomes b keys.toList
      (listRecurse b path 0 (w.emit (.log (.collecting path)))).2.store)).length = M) :
    (DeleteAll b path w).1 = .ret none ∧
    deleteAttempts (DeleteAll b path w).2.trace = deleteAttempts w.trace ++ keys.toList ∧
    (deleteAttempts (DeleteAll b path w).2.trace).length = (deleteAttempts w.trace).length + K ∧
    deleteWarnings (DeleteAll b path w).2.trace
      = deleteWarnings w.trace ++ failedKeys (deleteOutcomes b keys.toList
          (listRecurse b path 0 (w.emit (.log (.collecting path)))).2.store) ∧
    (deleteWarnings (DeleteAll b path w).2.trace).length = (deleteWarnings w.trace).length + M ∧
    (failedKeys (deleteOutcomes b keys.toList
      (listRecurse b path 0 (w.emit (.log (.collecting path)))).2.store)).Sublist
        keys.toList := by
  obtain ⟨w1, t, hr, hs, ht, hl⟩ := enumeration_frame b path w
  rw [henum] at hr
  obtain ⟨hta, htw, -⟩ := no_delete_in_lists t hl
  obtain ⟨-, hp2, hp3⟩ := promptEvents_frame keys.toList
  obtain ⟨hd1, hd2⟩ := deleteLoop_outcomes b keys.toList
    ⟨w1.store, w1.trace ++ promptEvents keys.toList ++ [.log (.deleting keys.toList.length)],
      rest⟩
  have hstore : (listRecurse b path 0 (w.emit (.log (.collecting path)))).2.store = w1.store := by
    rw [hr]
  rw [hstore] at hM ⊢
  have key : (DeleteAll b path w).1 = .ret none ∧
      deleteAttempts (DeleteAll b path w).2.trace = deleteAttempts w.trace ++ keys.toList ∧
      deleteWarnings (DeleteAll b path w).2.trace
        = deleteWarnings w.trace ++ failedKeys (deleteOutcomes b keys.toList w1.store) := by
    rw [DeleteAll_affirmed b path w w1 keys answer rest hr hsome (hs.trans hin) hyes]
    simp only at hd1 hd2
    refine ⟨rfl, ?_, ?_⟩
    · simp only [World.emit]
      rw [deleteAttempts_append, hd1]
      simp only [deleteAttempts_append, ht, hta, hp2]
      simp [deleteAttempts]
    · simp only [World.emit]
      rw [deleteWarnings_append, hd2]
      simp only [deleteWarnings_append, ht, htw, hp3]
      simp [deleteWarnings]
  refine ⟨key.1, key.2.1, ?_, key.2.2, ?_, (deleteOutcomes_keys b keys.toList w1.store).2⟩
  · rw [key.2.1, List.length_append, hK]
  · rw [key.2.2, List.length_append, hM]

/-- Witness of C10: two leaves below `kv/` on a server that accepts two more
delete requests.  The requests for `kv/a` use them up, both requests for `kv/b`
are refused: both leaves are tried, one warning is logged, the result is nil. -/
theorem DeleteAll_tolerates_failures_witness :
    (DeleteAll (quotaBackend "kv/" [.leaf "a", .leaf "b"]) "kv/" ⟨2, [], ["yes"]⟩).1
      = .ret none ∧
    deleteAttempts (DeleteAll (quotaBackend "kv/" [.leaf "a", .leaf "b"]) "kv/"
      ⟨2, [], ["yes"]⟩).2.trace = ["kv/a", "kv/b"] ∧
    deleteWarnings (DeleteAll (quotaBackend "kv/" [.leaf "a", .leaf "b"]) "kv/"
      ⟨2, [], ["yes"]⟩).2.trace = ["kv/b"] ∧
    (deleteWarnings (DeleteAll (quotaBackend "kv/" [.leaf "a", .leaf "b"]) "kv/"
      ⟨2, [], ["yes"]⟩).2.trace).length = 1 := by
  have hflat := listRecurse_flat (quotaBackend "kv/" [.leaf "a", .leaf "b"]) "kv/" ["a", "b"]
    (World.emit ⟨2, [], ["yes"]⟩ (.log (.collecting "kv/"))) (fun _ => rfl) (by decide)
  have h := DeleteAll_tolerates_failures (quotaBackend "kv/" [.leaf "a", .leaf "b"]) "kv/"
    ⟨2, [], ["yes"]⟩ (some ["kv/a", "kv/b"]) "yes" [] 2 1
    (by rw [hflat]; rfl) (by decide) rfl (Or.inl rfl) rfl (by rw [hflat]; rfl)
  rw [hflat] at h
  exact ⟨h.1, h.2.1, h.2.2.2.1, h.2.2.2.2.1⟩

/-- Counterexample to C15: the leaf `kv/a` is stored, the delete request for
`kv/a` is refused and the one for `kv/metadata/a` succeeds.  `DeleteAll` logs no
warning for the leaf, and after the run the leaf is still stored and can still
be read. -/
theorem DeleteAll_unlogged_leaf_still_stored :
    (DeleteAll flakyBackend "kv/" ⟨["kv/a"], [], ["yes"]⟩).1 = .ret none ∧
    deleteAttempts (DeleteAll flakyBackend "kv/" ⟨["kv/a"], [], ["yes"]⟩).2.trace = ["kv/a"] ∧
    deleteWarnings (DeleteAll flakyBackend "kv/" ⟨["kv/a"], [], ["yes"]⟩).2.trace = [] ∧
    deleteCalls (DeleteAll flakyBackend "kv/" ⟨["kv/a"], [], ["yes"]⟩).2.trace
      = ["kv/a", "kv/metadata/a"] ∧
    (DeleteAll flakyBackend "kv/" ⟨["kv/a"], [], ["yes"]⟩).2.store = ["kv/a"] ∧
    (flakyBackend.Read "kv/a"
      (DeleteAll flakyBackend "kv/" ⟨["kv/a"], [], ["yes"]⟩).2.store).1.1.isSome = true := by
  have hflat := listRecurse_flat flakyBackend "kv/" ["a"]
    (World.emit ⟨["kv/a"], [], ["yes"]⟩ (.log (.collecting "kv/"))) (fun _ => rfl) (by decide)
  rw [DeleteAll_affirmed flakyBackend "kv/" ⟨["kv/a"], [], ["yes"]⟩ _ (some ["kv/a"]) "yes" []
    hflat (by decide) rfl (Or.inl rfl)]
  refine ⟨rfl, ?_, ?_, ?_, ?_, ?_⟩ <;> rfl

end Vaultd
